import Mathlib

set_option maxRecDepth 4000

/-!
Verification development for the htma-scanner repository (Rust).

The Rust sources (src/main.rs, src/shows.rs) are shallowly embedded below.
Text processing is modelled over `List Char` with structural recursion so that
all definitions are executable and kernel-reducible.  `chrono`'s calendar
validity checks, its `%H:%M` parser, and its `Display`/`FromStr` forms for
`NaiveDate`/`NaiveTime` are embedded following the semantics of chrono 0.4
(numeric fields skip leading ASCII whitespace, widths 1..2 for two-digit
fields, signed year with unlimited width when an explicit sign is present).
-/

namespace HtmaScanner

/-- ASCII whitespace test used throughout the embedding (Rust `char::is_whitespace`
restricted to the ASCII range actually exercised by the program). -/
def isWs (c : Char) : Bool := c.isWhitespace

/-- Rust `str::trim_start` on a character list. -/
def trimStartL (cs : List Char) : List Char := cs.dropWhile isWs

/-- Rust `str::trim` on a character list. -/
def trimL (cs : List Char) : List Char :=
  ((cs.dropWhile isWs).reverse.dropWhile isWs).reverse

/-- Split on every character satisfying `p`, keeping empty segments:
the semantics of Rust `str::split` with a char predicate pattern. -/
def splitPredAux (p : Char → Bool) : List Char → List (List Char)
  | [] => [[]]
  | c :: cs =>
    match splitPredAux p cs with
    | [] => [[]]
    | h :: t => if p c then [] :: h :: t else (c :: h) :: t

/-- Rust `str::split(',')`. -/
def splitComma (cs : List Char) : List (List Char) :=
  splitPredAux (fun c => c = ',') cs

/-- Rust `str::split_whitespace`: split on whitespace and drop empty segments. -/
def splitWsL (cs : List Char) : List (List Char) :=
  (splitPredAux isWs cs).filter (fun t => !t.isEmpty)

/-- Numeric value of an ASCII digit character. -/
def digitVal (c : Char) : Nat := c.toNat - 48

/-- Value of a decimal digit string (most significant first). -/
def valOfDigits (cs : List Char) : Nat := cs.foldl (fun a c => 10 * a + digitVal c) 0

/-- Rust `"…".parse::<u32>()`: optional leading `+`, then one or more ASCII
digits, value bounded by `u32::MAX`. A leading `-` is rejected for `u32`. -/
def parseU32L (cs : List Char) : Option Nat :=
  let ds := match cs with
    | '+' :: r => r
    | r => r
  if ds.isEmpty then none
  else if ds.all Char.isDigit then
    if valOfDigits ds < 4294967296 then some (valOfDigits ds) else none
  else none

/-- Digit-run parse for `i32` (sign already removed): bound is supplied by the
caller since `i32::MIN` and `i32::MAX` differ in magnitude. -/
def parseI32Mag (bound : Nat) (ds : List Char) : Option Nat :=
  if ds.isEmpty then none
  else if ds.all Char.isDigit then
    if valOfDigits ds ≤ bound then some (valOfDigits ds) else none
  else none

/-- Rust `"…".parse::<i32>()`. -/
def parseI32L (cs : List Char) : Option Int :=
  match cs with
  | '+' :: r => (parseI32Mag 2147483647 r).map (fun v => (v : Int))
  | '-' :: r => (parseI32Mag 2147483648 r).map (fun v => -(v : Int))
  | r => (parseI32Mag 2147483647 r).map (fun v => (v : Int))

/-! ## Calendar data (chrono `NaiveDate` / `NaiveTime`) -/

/-- Raw year/month/day triple. -/
structure Ymd where
  year : Int
  month : Nat
  day : Nat
deriving DecidableEq, Repr

/-- chrono's proleptic-Gregorian leap-year rule (Rust `%` on `i32` agrees with
`Int.emod` for divisibility tests). -/
def isLeapYear (y : Int) : Bool := y % 4 == 0 && (y % 100 != 0 || y % 400 == 0)

/-- Days in a month of the proleptic Gregorian calendar. -/
def daysInMonth (y : Int) (m : Nat) : Nat :=
  match m with
  | 2 => if isLeapYear y then 29 else 28
  | 4 => 30
  | 6 => 30
  | 9 => 30
  | 11 => 30
  | _ => 31

/-- Validity check of chrono `NaiveDate::from_ymd_opt`: the year bounds are
chrono's `MIN_YEAR = i32::MIN >> 13` and `MAX_YEAR = i32::MAX >> 13`. -/
def ValidYmd (d : Ymd) : Prop :=
  -262144 ≤ d.year ∧ d.year ≤ 262143 ∧
  1 ≤ d.month ∧ d.month ≤ 12 ∧
  1 ≤ d.day ∧ d.day ≤ daysInMonth d.year d.month

instance (d : Ymd) : Decidable (ValidYmd d) := by
  unfold ValidYmd
  infer_instance

/-- chrono `NaiveDate`: a valid year/month/day triple. -/
abbrev NaiveDate := { d : Ymd // ValidYmd d }

/-- Raw hour/minute/second triple. -/
structure Hms where
  hour : Nat
  minute : Nat
  second : Nat
deriving DecidableEq, Repr

/-- Validity check of chrono `NaiveTime::from_hms_opt`.  The shows handled by
this program always carry zero nanoseconds (`%H:%M` parsing and the default),
so the nanosecond field is omitted from the model. -/
def ValidHms (t : Hms) : Prop := t.hour < 24 ∧ t.minute < 60 ∧ t.second < 60

instance (t : Hms) : Decidable (ValidHms t) := by
  unfold ValidHms
  infer_instance

/-- chrono `NaiveTime` (zero-nanosecond fragment). -/
abbrev NaiveTime := { t : Hms // ValidHms t }

/-- `NaiveDate::from_ymd_opt(1970, 1, 1).unwrap()`: the sentinel default date. -/
def epochDate : NaiveDate := ⟨⟨1970, 1, 1⟩, by decide⟩

/-- `NaiveTime::from_hms_opt(0, 0, 0).unwrap()`: the sentinel default time. -/
def midnightTime : NaiveTime := ⟨⟨0, 0, 0⟩, by decide⟩

/-! ## Data model (src/shows.rs) -/

/-- The `Category` enumeration. -/
inductive Category where
  | None
  | Comedy
  | Music
deriving DecidableEq, Repr

/-- The `Show` record; equality is structural on all four fields, exactly as
the Rust `#[derive(PartialEq)]`. -/
structure Show where
  title : String
  date : NaiveDate
  time : NaiveTime
  category : Category
deriving DecidableEq

/-- `Show::default()`. -/
def defaultShow : Show := ⟨"", epochDate, midnightTime, Category.None⟩

/-- The error cases of the parsing pipeline, named after the spec's taxonomy;
in the Rust source they are `anyhow!` messages with the corresponding text. -/
inductive ParseError where
  | InvalidDateFormat
  | InvalidDay
  | InvalidMonth
  | InvalidYear
  | InvalidDate
  | InvalidTimeFormat
deriving DecidableEq, Repr

/-! ## parse_hebrew_date (src/shows.rs lines 77-116) -/

/-- The fixed ordered table of 12 Hebrew month names. -/
def hebrewMonths : List (List Char) :=
  [("ינואר").data, ("פברואר").data, ("מרץ").data, ("אפריל").data,
   ("מאי").data, ("יוני").data, ("יולי").data, ("אוגוסט").data,
   ("ספטמבר").data, ("אוקטובר").data, ("נובמבר").data, ("דצמבר").data]

/-- `months.iter().position(|&m| m == token)`. -/
def monthIndexAux (target : List Char) : List (List Char) → Option Nat
  | [] => none
  | m :: ms => if m = target then some 0 else (monthIndexAux target ms).map (· + 1)

/-- `parse_hebrew_date` from src/shows.rs. -/
def parse_hebrew_date (dateStr : String) : Except ParseError NaiveDate :=
  match splitComma dateStr.data with
  | [_, p1] =>
    match splitWsL (trimL p1) with
    | [dTok, mTok, yTok] =>
      match parseU32L dTok with
      | none => .error .InvalidDay
      | some day =>
        match monthIndexAux mTok hebrewMonths with
        | none => .error .InvalidMonth
        | some idx =>
          match parseI32L yTok with
          | none => .error .InvalidYear
          | some year =>
            let d : Ymd := ⟨year, idx + 1, day⟩
            if h : ValidYmd d then .ok ⟨d, h⟩ else .error .InvalidDate
    | _ => .error .InvalidDateFormat
  | _ => .error .InvalidDateFormat

/-! ## Time parsing (src/shows.rs lines 158-159) -/

/-- Rust `str::replace("בשעה ", "")`: delete every (leftmost, non-overlapping)
occurrence of the five-character phrase. Structured as a left-to-right scan,
exactly as Rust's `match_indices`-based replacement. -/
def deletePhrase : List Char → List Char
  | 'ב' :: 'ש' :: 'ע' :: 'ה' :: ' ' :: rest => deletePhrase rest
  | c :: rest => c :: deletePhrase rest
  | [] => []

/-- Consume up to `w` leading ASCII digits (chrono `scan::number` with
maximum width `w`), returning the digits and the remainder. -/
def takeDigits : Nat → List Char → List Char × List Char
  | 0, cs => ([], cs)
  | _ + 1, [] => ([], [])
  | w + 1, c :: cs =>
    if c.isDigit then
      let r := takeDigits w cs
      (c :: r.1, r.2)
    else ([], c :: cs)

/-- Consume all leading ASCII digits (chrono `scan::number` with unlimited
width, used after an explicit year sign). -/
def takeDigitsU : List Char → List Char × List Char
  | [] => ([], [])
  | c :: cs =>
    if c.isDigit then
      let r := takeDigitsU cs
      (c :: r.1, r.2)
    else ([], c :: cs)

/-- chrono two-digit numeric field: at least one, at most two digits. -/
def scanNum2 (cs : List Char) : Option (Nat × List Char) :=
  let r := takeDigits 2 cs
  if r.1.isEmpty then none else some (valOfDigits r.1, r.2)

/-- chrono literal `-` item. -/
def expectDash : List Char → Option (List Char)
  | '-' :: r => some r
  | _ => none

/-- chrono literal `:` item. -/
def expectColon : List Char → Option (List Char)
  | ':' :: r => some r
  | _ => none

/-- chrono `NaiveTime::parse_from_str(s, "%H:%M")`: hour (1-2 digits, leading
whitespace skipped), literal `:`, minute (1-2 digits, leading whitespace
skipped), nothing left over, then `from_hms` validity (seconds default to 0). -/
def parseTimeHM (cs : List Char) : Option NaiveTime :=
  match scanNum2 (trimStartL cs) with
  | none => none
  | some (h, rest) =>
    match expectColon rest with
    | none => none
    | some r2 =>
      match scanNum2 (trimStartL r2) with
      | none => none
      | some (m, rest2) =>
        if rest2.isEmpty then
          let t : Hms := ⟨h, m, 0⟩
          if hv : ValidHms t then some ⟨t, hv⟩ else none
        else none

/-- The time normalization applied by `get_shows_by_category` to the text of a
time sub-node: trim, delete every occurrence of the Hebrew phrase, then parse
strictly as 24-hour `HH:MM`. -/
def parse_time (s : String) : Option NaiveTime :=
  parseTimeHM (deletePhrase (trimL s.data))

/-! ## Decimal rendering (chrono `Display` for `NaiveDate`/`NaiveTime`) -/

/-- The ASCII character of a decimal digit. -/
def digitChar (n : Nat) : Char := Char.ofNat (48 + n)

/-- Fuelled most-significant-first decimal rendering; `fuel = n + 1` always
suffices since the argument shrinks by a factor of 10 each step. -/
def natDigitsAux : Nat → Nat → List Char → List Char
  | 0, _, acc => acc
  | fuel + 1, n, acc =>
    if n < 10 then digitChar n :: acc
    else natDigitsAux fuel (n / 10) (digitChar (n % 10) :: acc)

/-- Decimal digit string of a natural number (no padding, no sign). -/
def natToDigits (n : Nat) : List Char := natDigitsAux (n + 1) n []

/-- Zero-pad on the left to width `w` (Rust `{:0w}` formatting). -/
def padZeros (w : Nat) (cs : List Char) : List Char :=
  List.replicate (w - cs.length) '0' ++ cs

/-- chrono `Display` for the year of a `NaiveDate`: years 0..=9999 are
rendered as four zero-padded digits, years outside that range carry an
explicit sign (`{:+05}` pads the digits to four after the sign; for years
above 9999 the padding is vacuous). -/
def dispYearL (y : Int) : List Char :=
  if 0 ≤ y then
    if y ≤ 9999 then padZeros 4 (natToDigits y.toNat)
    else '+' :: padZeros 4 (natToDigits y.toNat)
  else '-' :: padZeros 4 (natToDigits (-y).toNat)

/-- chrono `Display` for `NaiveDate`: `YYYY-MM-DD`. -/
def dispDateL (d : Ymd) : List Char :=
  dispYearL d.year ++
    ('-' :: (padZeros 2 (natToDigits d.month) ++ ('-' :: padZeros 2 (natToDigits d.day))))

/-- chrono `Display` for `NaiveTime` with zero nanoseconds: `HH:MM:SS`. -/
def dispTimeL (t : Hms) : List Char :=
  padZeros 2 (natToDigits t.hour) ++
    (':' :: (padZeros 2 (natToDigits t.minute) ++ (':' :: padZeros 2 (natToDigits t.second))))

/-- String form of a date, as produced by `{}` formatting in Rust. -/
def dispDate (d : NaiveDate) : String := String.mk (dispDateL d.val)

/-- String form of a time, as produced by `{}` formatting in Rust. -/
def dispTime (t : NaiveTime) : String := String.mk (dispTimeL t.val)

/-! ## chrono `FromStr` for `NaiveDate` / `NaiveTime` (used by serde) -/

/-- chrono four-digit numeric field (year without explicit sign). -/
def scanNum4 (cs : List Char) : Option (Nat × List Char) :=
  let r := takeDigits 4 cs
  if r.1.isEmpty then none else some (valOfDigits r.1, r.2)

/-- chrono unlimited-width digit run (year after an explicit sign). -/
def scanNumU (cs : List Char) : Option (Nat × List Char) :=
  let r := takeDigitsU cs
  if r.1.isEmpty then none else some (valOfDigits r.1, r.2)

/-- chrono signed year field: with an explicit sign the width is unlimited,
without one it is at most four digits. -/
def scanYear (cs : List Char) : Option (Int × List Char) :=
  match cs with
  | '-' :: r =>
    match scanNumU r with
    | none => none
    | some (v, rest) => some (-(v : Int), rest)
  | '+' :: r =>
    match scanNumU r with
    | none => none
    | some (v, rest) => some ((v : Int), rest)
  | r =>
    match scanNum4 r with
    | none => none
    | some (v, rest) => some ((v : Int), rest)

/-- chrono `NaiveDate::from_str` (the parser serde deserialization uses):
items `Year "-" Month "-" Day` with whitespace skipped around numeric items,
then `from_ymd`-style validity. -/
def parseDateIsoL (cs : List Char) : Option NaiveDate :=
  match scanYear (trimStartL cs) with
  | none => none
  | some (y, r1) =>
    match expectDash (trimStartL r1) with
    | none => none
    | some r2 =>
      match scanNum2 (trimStartL r2) with
      | none => none
      | some (mo, r3) =>
        match expectDash (trimStartL r3) with
        | none => none
        | some r4 =>
          match scanNum2 (trimStartL r4) with
          | none => none
          | some (dy, r5) =>
            if (trimStartL r5).isEmpty then
              let d : Ymd := ⟨y, mo, dy⟩
              if h : ValidYmd d then some ⟨d, h⟩ else none
            else none

/-- chrono optional fractional-second item (`Fixed::Nanosecond`): a dot
followed by digits.  Shows in this program never carry nanoseconds, so a
nonzero fraction has no representation in the model. -/
def parseFrac : List Char → Option (List Char)
  | '.' :: r =>
    let t := takeDigitsU r
    if t.1.isEmpty then none
    else if valOfDigits t.1 = 0 then some t.2 else none
  | cs => some cs

/-- chrono `NaiveTime::from_str`: `Hour ":" Minute ":" Second [frac]`. -/
def parseTimeIsoL (cs : List Char) : Option NaiveTime :=
  match scanNum2 (trimStartL cs) with
  | none => none
  | some (h, r1) =>
    match expectColon (trimStartL r1) with
    | none => none
    | some r2 =>
      match scanNum2 (trimStartL r2) with
      | none => none
      | some (m, r3) =>
        match expectColon (trimStartL r3) with
        | none => none
        | some r4 =>
          match scanNum2 (trimStartL r4) with
          | none => none
          | some (s, r5) =>
            match parseFrac r5 with
            | none => none
            | some r6 =>
              if (trimStartL r6).isEmpty then
                let t : Hms := ⟨h, m, s⟩
                if hv : ValidHms t then some ⟨t, hv⟩ else none
              else none

/-! ## Snapshot store (src/main.rs `export_file` / `import_file`)

`export_file` serializes `Vec<Show>` with `serde_json::to_string_pretty` and
writes the text to `shows.json`; `import_file` reads the file back and
deserializes.  The JSON text layer is `serde_json`'s own (its text round-trip
is the library's guarantee, not this repository's code), so the snapshot is
modelled at the JSON *value* level; the typed encoding of `Show` — including
chrono's date/time string forms and the serde variant names of `Category` —
is modelled in full. -/

/-- JSON values (the fragment produced by serializing `Vec<Show>`). -/
inductive Json where
  | str (s : String)
  | arr (elems : List Json)
  | obj (fields : List (String × Json))

/-- serde variant name of a `Category` value. -/
def categoryName : Category → String
  | .None => "None"
  | .Comedy => "Comedy"
  | .Music => "Music"

/-- serde deserialization of a `Category` variant name. -/
def decodeCategory (s : String) : Option Category :=
  if s = "None" then some Category.None
  else if s = "Comedy" then some Category.Comedy
  else if s = "Music" then some Category.Music
  else none

/-- serde serialization of one `Show` (derived `Serialize`: fields in
declaration order, chrono date/time via their `Display` strings). -/
def encodeShow (s : Show) : Json :=
  .obj [("title", .str s.title), ("date", .str (dispDate s.date)),
        ("time", .str (dispTime s.time)), ("category", .str (categoryName s.category))]

/-- Field lookup in a JSON object (first match). -/
def lookupField : List (String × Json) → String → Option Json
  | [], _ => none
  | (k, v) :: rest, key => if k = key then some v else lookupField rest key

/-- serde deserialization of one `Show` (derived `Deserialize`: all four
fields required, strings parsed back through chrono's `FromStr`). -/
def decodeShow (j : Json) : Option Show :=
  match j with
  | .obj fields =>
    match lookupField fields ("title") with
    | some (.str t) =>
      match lookupField fields ("date") with
      | some (.str ds) =>
        match parseDateIsoL ds.data with
        | some d =>
          match lookupField fields ("time") with
          | some (.str ts) =>
            match parseTimeIsoL ts.data with
            | some tm =>
              match lookupField fields ("category") with
              | some (.str cs) =>
                match decodeCategory cs with
                | some c => some ⟨t, d, tm, c⟩
                | none => none
              | _ => none
            | none => none
          | _ => none
        | none => none
      | _ => none
    | _ => none
  | _ => none

/-- Option-valued effectful map (serde sequence deserialization). -/
def mapDecode : List Json → Option (List Show)
  | [] => some []
  | j :: rest =>
    match decodeShow j with
    | none => none
    | some s =>
      match mapDecode rest with
      | none => none
      | some ss => some (s :: ss)

/-- `export_file`: the JSON value persisted for a list of shows. -/
def export_file (shows : List Show) : Json := .arr (shows.map encodeShow)

/-- `import_file`: deserialize a persisted JSON value back to `Vec<Show>`. -/
def import_file (j : Json) : Option (List Show) :=
  match j with
  | .arr elems => mapDecode elems
  | _ => none

/-! ## The parsed markup tree (`scraper::Html`)

`Html::parse_document` yields a tree of element and text nodes; extraction
only inspects tag names, the `class` attribute and text content, so nodes are
modelled with exactly those.  A document is the forest of top-level nodes. -/

mutual
/-- One node of the parsed markup tree. -/
inductive Node where
  | element (tag : String) (classAttr : Option String) (children : NodeForest)
  | text (s : String)
/-- A sequence of sibling nodes. -/
inductive NodeForest where
  | nil
  | cons (head : Node) (tail : NodeForest)
end

/-- The whitespace-separated tokens of a `class` attribute. -/
def classTokens (attr : Option String) : List (List Char) :=
  match attr with
  | none => []
  | some s => splitWsL s.data

/-- Selector `div[class="category_shows"]`: exact attribute comparison. -/
def isContainerNode : Node → Bool
  | .element tag cls _ => tag = "div" && cls = some ("category_shows")
  | .text _ => false

/-- Selector `div.details-container`: class-token membership. -/
def isDetailsNode : Node → Bool
  | .element tag cls _ => tag = "div" && (classTokens cls).contains ("details-container").data
  | .text _ => false

/-- Selector `h2`. -/
def isH2Node : Node → Bool
  | .element tag _ _ => tag = "h2"
  | .text _ => false

/-- Selector `div.date_container`. -/
def isDateNode : Node → Bool
  | .element tag cls _ => tag = "div" && (classTokens cls).contains ("date_container").data
  | .text _ => false

/-- Selector `div.time_container`. -/
def isTimeNode : Node → Bool
  | .element tag cls _ => tag = "div" && (classTokens cls).contains ("time_container").data
  | .text _ => false

mutual
/-- First node of a subtree (preorder, the node itself included) satisfying
`p`: the document-level `select(..).next()` of scraper. -/
def firstMatchNode (p : Node → Bool) : Node → Option Node
  | .text s => if p (.text s) then some (.text s) else none
  | .element t c ch =>
    if p (.element t c ch) then some (.element t c ch) else firstMatchForest p ch
/-- First node of a forest (preorder) satisfying `p`. -/
def firstMatchForest (p : Node → Bool) : NodeForest → Option Node
  | .nil => none
  | .cons n ns =>
    match firstMatchNode p n with
    | some r => some r
    | none => firstMatchForest p ns
end

mutual
/-- All nodes of a subtree (preorder, the node itself included) satisfying `p`. -/
def collectNode (p : Node → Bool) : Node → List Node
  | .text s => if p (.text s) then [.text s] else []
  | .element t c ch =>
    (if p (.element t c ch) then [Node.element t c ch] else []) ++ collectForest p ch
/-- All nodes of a forest (preorder) satisfying `p`. -/
def collectForest (p : Node → Bool) : NodeForest → List Node
  | .nil => []
  | .cons n ns => collectNode p n ++ collectForest p ns
end

/-- scraper `ElementRef::select`: descendants of a node (itself excluded)
matching `p`, in document order. -/
def selectDescendants (p : Node → Bool) : Node → List Node
  | .element _ _ ch => collectForest p ch
  | .text _ => []

/-- scraper `element.select(..).next()`: first matching descendant. -/
def firstDescendant (p : Node → Bool) : Node → Option Node
  | .element _ _ ch => firstMatchForest p ch
  | .text _ => none

mutual
/-- `element.text().collect::<String>()`: concatenated text of a subtree. -/
def textContentNode : Node → List Char
  | .text s => s.data
  | .element _ _ ch => textContentForest ch
/-- Concatenated text of a forest. -/
def textContentForest : NodeForest → List Char
  | .nil => []
  | .cons n ns => textContentNode n ++ textContentForest ns
end

/-! ## Extraction (src/shows.rs `get_shows_by_category`, lines 126-165) -/

/-- Outcome of a Rust computation that may panic (`unwrap` on `None`),
return an error, or succeed. -/
inductive RunResult (ε α : Type) where
  | panics
  | error (e : ε)
  | ok (a : α)
deriving DecidableEq

/-- The `if let Some(title) = element.select(h2).next()` block: trimmed text
of the first heading, or the empty-string default. -/
def extractTitle (el : Node) : String :=
  match firstDescendant isH2Node el with
  | some h2El => String.mk (trimL (textContentNode h2El))
  | none => ""

/-- The `if let Some(date) = element.select(div.date_container).next()`
block: parse the trimmed text (propagating failure via `?`), or keep the
sentinel default. -/
def extractDate (el : Node) : Except ParseError NaiveDate :=
  match firstDescendant isDateNode el with
  | some dn => parse_hebrew_date (String.mk (trimL (textContentNode dn)))
  | none => Except.ok epochDate

/-- The `if let Some(time) = element.select(div.time_container).next()`
block: normalize and parse the text (propagating failure via `?`), or keep
the sentinel default. -/
def extractTime (el : Node) : Except ParseError NaiveTime :=
  match firstDescendant isTimeNode el with
  | some tn =>
    match parse_time (String.mk (textContentNode tn)) with
    | some t => Except.ok t
    | none => Except.error ParseError.InvalidTimeFormat
  | none => Except.ok midnightTime

/-- The body of the `for element in details_element` loop: build one `Show`
from one detail block.  A missing optional sub-node leaves the corresponding
field at its `Show::default()` sentinel; a present sub-node whose text fails
to parse propagates the parse error via `?`. -/
def extractItem (category : Category) (el : Node) : Except ParseError Show :=
  match extractDate el with
  | .error e => .error e
  | .ok date =>
    match extractTime el with
    | .error e => .error e
    | .ok time => .ok ⟨extractTitle el, date, time, category⟩

/-- The extraction loop: one `Show` per detail block, in document order,
aborting at the first parse failure. -/
def mapExtract (category : Category) : List Node → Except ParseError (List Show)
  | [] => .ok []
  | el :: rest =>
    match extractItem category el with
    | .error e => .error e
    | .ok s =>
      match mapExtract category rest with
      | .error e => .error e
      | .ok ss => .ok (s :: ss)

/-- `get_shows_by_category`, taking the already-parsed document (the HTTP
fetch is an external collaborator).  A document without the
`div[class="category_shows"]` container hits `.next().unwrap()`, which
panics. -/
def get_shows_by_category (category : Category) (doc : NodeForest) :
    RunResult ParseError (List Show) :=
  match firstMatchForest isContainerNode doc with
  | none => .panics
  | some container =>
    match mapExtract category (selectDescendants isDetailsNode container) with
    | .error e => .error e
    | .ok shows => .ok shows

/-! ## Aggregation (src/main.rs `get_shows`, lines 94-102) -/

/-- Rust `Ord::cmp` on `i32`. -/
def cmpInt (a b : Int) : Ordering := if a < b then .lt else if a = b then .eq else .gt

/-- Rust `Ord::cmp` on unsigned integers. -/
def cmpNat (a b : Nat) : Ordering := if a < b then .lt else if a = b then .eq else .gt

/-- chrono `NaiveDate::cmp`: chronological order, i.e. lexicographic on
(year, month, day). -/
def cmpDate (a b : NaiveDate) : Ordering :=
  (cmpInt a.val.year b.val.year).then
    ((cmpNat a.val.month b.val.month).then (cmpNat a.val.day b.val.day))

/-- chrono `NaiveTime::cmp` (zero-nanosecond fragment): lexicographic on
(hour, minute, second). -/
def cmpTime (a b : NaiveTime) : Ordering :=
  (cmpNat a.val.hour b.val.hour).then
    ((cmpNat a.val.minute b.val.minute).then (cmpNat a.val.second b.val.second))

/-- The comparator of `shows_vec.sort_by`: by date, then by time. -/
def cmpShow (a b : Show) : Ordering := (cmpDate a.date b.date).then (cmpTime a.time b.time)

/-- The `is not greater` form of the comparator.  Rust `slice::sort_by` is a
stable sort with respect to this relation; `List.mergeSort` is the stable
sort on lists. -/
def showLE (a b : Show) : Bool :=
  match cmpShow a b with
  | .gt => false
  | _ => true

/-- `get_shows`, taking the parsed documents per category: Comedy first, then
Music, concatenated and stably sorted by (date, time). -/
def get_shows (docs : Category → NodeForest) : RunResult ParseError (List Show) :=
  match get_shows_by_category Category.Comedy (docs Category.Comedy) with
  | .panics => .panics
  | .error e => .error e
  | .ok comedyShows =>
    match get_shows_by_category Category.Music (docs Category.Music) with
    | .panics => .panics
    | .error e => .error e
    | .ok musicShows => .ok (List.mergeSort (comedyShows ++ musicShows) showLE)

/-! ## Diff engine (src/main.rs `check_for_new_shows`, lines 71-80) -/

/-- `check_for_new_shows`: retain the current shows that are structurally
equal to no previous show; `None` when nothing new remains. -/
def check_for_new_shows (prevShows current : List Show) : Option (List Show) :=
  let newShows := current.filter (fun s => !(prevShows.any (fun old => old == s)))
  if newShows.isEmpty then none else some newShows

/-! ## Notification formatter (src/main.rs lines 39-46) -/

/-- One line of the notification message:
`format!("{} 🔛 `{} ({})`", s.title, s.date, s.time)`. -/
def showLine (s : Show) : String :=
  s.title ++ " 🔛 `" ++ dispDate s.date ++ " (" ++ dispTime s.time ++ ")`"

/-- The rendered notification: header plus the per-show lines joined with
`\r\n`. -/
def renderMessage (newShows : List Show) : String :=
  "*הופעות חדשות*:\n" ++ String.intercalate ("\r\n") (newShows.map showLine)

/-! ## The run (src/main.rs `main`, lines 17-57)

State passing model: the snapshot file is `Option (List Show)` (`none` means
missing or unreadable — `import_file` recovers that case to `vec![]`); the
aggregation outcome and the success of the notification call and of the
snapshot write are inputs, since they depend on external collaborators. -/

/-- One invocation of `main`.  Returns the snapshot file after the run and
whether the run terminated successfully. -/
def runMain (file0 : Option (List Show)) (fetched : RunResult ParseError (List Show))
    (notifyOk exportOk : Bool) : Option (List Show) × Bool :=
  let prevShows := file0.getD []
  match fetched with
  | .panics => (file0, false)
  | .error _ => (file0, false)
  | .ok current =>
    if prevShows = current then (file0, true)
    else
      match check_for_new_shows prevShows current with
      | some _ =>
        if notifyOk then
          if exportOk then (some current, true) else (file0, false)
        else (file0, false)
      | none => (file0, true)

/-! ## Concrete fixtures (the spec's end-to-end scenario of §8) -/

/-- Show A of the spec's end-to-end scenario. -/
def showA : Show := ⟨"A", ⟨⟨2025, 1, 1⟩, by decide⟩, ⟨⟨19, 0, 0⟩, by decide⟩, Category.Comedy⟩

/-- Show B of the spec's end-to-end scenario. -/
def showB : Show := ⟨"B", ⟨⟨2025, 1, 2⟩, by decide⟩, ⟨⟨20, 0, 0⟩, by decide⟩, Category.Music⟩

/-! ## Helper lemmas on the diff -/

/-- Diffing a list against itself reports nothing. -/
theorem check_for_new_shows_self (l : List Show) : check_for_new_shows l l = none := by
  unfold check_for_new_shows
  have h : l.filter (fun s => !(l.any (fun old => old == s))) = [] := by
    rw [List.filter_eq_nil_iff]
    intro s hs
    have ha : l.any (fun old => old == s) = true :=
      List.any_eq_true.mpr ⟨s, hs, beq_self_eq_true s⟩
    simp [ha]
  simp [h]

/-! ## Claim C1 -/

/-- C1: the diff returns exactly the order-preserving subsequence of
`current` consisting of the shows with no structurally equal show in
`previous` (`None` standing for the empty result); reported shows always come
from `current` and never from `previous` alone, and diffing two identical
sequences reports nothing. -/
theorem claim_C1_diff_is_order_preserving_filter :
    ∀ prevShows current : List Show,
      ((check_for_new_shows prevShows current).getD [] =
        current.filter (fun s => !(prevShows.any (fun old => old == s)))) ∧
      ((check_for_new_shows prevShows current).getD []).Sublist current ∧
      (∀ s, s ∈ (check_for_new_shows prevShows current).getD [] →
        s ∈ current ∧ ¬ s ∈ prevShows) ∧
      (prevShows = current → check_for_new_shows prevShows current = none) := by
  intro p c
  have hmain : (check_for_new_shows p c).getD [] =
      c.filter (fun s => !(p.any (fun old => old == s))) := by
    unfold check_for_new_shows
    by_cases h : (c.filter (fun s => !(p.any (fun old => old == s)))).isEmpty
    · simp only [h, if_true, Option.getD_none]
      exact (List.isEmpty_iff.mp h).symm
    · rw [if_neg h, Option.getD_some]
  refine ⟨hmain, ?_, ?_, ?_⟩
  · rw [hmain]; exact List.filter_sublist c
  · intro s hs
    rw [hmain, List.mem_filter] at hs
    refine ⟨hs.1, ?_⟩
    intro hmem
    have : p.any (fun old => old == s) = true := List.any_eq_true.mpr ⟨s, hmem, beq_self_eq_true s⟩
    rw [this] at hs
    exact Bool.false_ne_true hs.2
  · intro h
    rw [h]
    exact check_for_new_shows_self c

/-- C1 witness: the identical-sequence case and the one-new-show case at
concrete inputs. -/
theorem claim_C1_diff_is_order_preserving_filter_witness :
    check_for_new_shows [showA] [showA] = none ∧
    (check_for_new_shows [showA] [showA, showB]).getD [] =
      [showA, showB].filter (fun s => !([showA].any (fun old => old == s))) :=
  ⟨(claim_C1_diff_is_order_preserving_filter [showA] [showA]).2.2.2 rfl,
   (claim_C1_diff_is_order_preserving_filter [showA] [showA, showB]).1⟩

/-! ## Claim C2 -/

/-- C2 counterexample: previous snapshot `[A, B]`, current aggregate `[A]`
(show B removed).  The run succeeds, yet the persisted snapshot still holds
`[A, B]`, not the current list `[A]` — `export_file` only runs when the diff
is non-empty. -/
theorem claim_C2_counterexample :
    runMain (some [showA, showB]) (.ok [showA]) true true = (some [showA, showB], true) ∧
    (some [showA, showB] : Option (List Show)) ≠ some [showA] := by
  constructor
  · rfl
  · decide

/-- C2 amended: the snapshot is overwritten with the current list exactly
when the run succeeds end-to-end AND the diff reports at least one new show;
every failing run, and every successful run whose diff is empty (identical
lists, or shows only removed), leaves the snapshot unchanged. -/
theorem claim_C2_snapshot_update :
    ∀ (file0 : Option (List Show)) (fetched : RunResult ParseError (List Show))
      (nOk eOk : Bool),
      (∀ e, fetched = .error e → runMain file0 fetched nOk eOk = (file0, false)) ∧
      (fetched = .panics → runMain file0 fetched nOk eOk = (file0, false)) ∧
      (∀ current, fetched = .ok current →
        check_for_new_shows (file0.getD []) current = none →
        runMain file0 fetched nOk eOk = (file0, true)) ∧
      (∀ current ns, fetched = .ok current →
        check_for_new_shows (file0.getD []) current = some ns →
        (nOk = true → eOk = true → runMain file0 fetched nOk eOk = (some current, true)) ∧
        ((nOk = false ∨ eOk = false) → runMain file0 fetched nOk eOk = (file0, false))) := by
  intro file0 fetched nOk eOk
  refine ⟨?_, ?_, ?_, ?_⟩
  · intro e he; subst he; rfl
  · intro he; subst he; rfl
  · intro current hf hdiff
    subst hf
    unfold runMain
    by_cases heq : file0.getD [] = current
    · simp [heq]
    · simp only [heq, if_false, hdiff]
  · intro current ns hf hdiff
    subst hf
    have heq : file0.getD [] ≠ current := by
      intro h
      rw [h, check_for_new_shows_self] at hdiff
      exact Option.noConfusion hdiff
    constructor
    · intro hn he
      subst hn; subst he
      unfold runMain
      simp only [heq, if_false, hdiff, if_true]
    · intro hor
      unfold runMain
      simp only [heq, if_false, hdiff]
      rcases hor with h | h <;> subst h <;> simp

/-- C2 witness: a successful run with one new show persists the current
list; a failed fetch leaves the snapshot unchanged. -/
theorem claim_C2_snapshot_update_witness :
    runMain (some [showA]) (.ok [showA, showB]) true true = (some [showA, showB], true) ∧
    runMain (some [showA]) (.error ParseError.InvalidDateFormat) true true =
      (some [showA], false) :=
  ⟨((claim_C2_snapshot_update (some [showA]) (.ok [showA, showB]) true true).2.2.2
      [showA, showB] [showB] rfl (by decide)).1 rfl rfl,
   (claim_C2_snapshot_update (some [showA]) (.error ParseError.InvalidDateFormat) true true).1
      ParseError.InvalidDateFormat rfl⟩

/-! ## Claim C4 -/

/-- Whether an outcome is a returned error (as opposed to success or a
panic). -/
def isErrResult {ε α : Type} : RunResult ε α → Bool
  | .error _ => true
  | _ => false

/-- C4 counterexample: on the empty document (no listing container
anywhere), extraction panics — `.next().unwrap()` on `None` — instead of
returning any error value to the caller.  (The code has no `MissingContainer`
error variant at all; its only custom error is `CategoryNotFound`.) -/
theorem claim_C4_counterexample :
    get_shows_by_category Category.Comedy NodeForest.nil = RunResult.panics ∧
    isErrResult (get_shows_by_category Category.Comedy NodeForest.nil) = false :=
  ⟨rfl, rfl⟩

/-- C4 amended: for every document whose parsed tree contains no node
matching `div[class="category_shows"]`, extraction for that category panics
(aborting the whole process) rather than returning an error. -/
theorem claim_C4_missing_container_panics :
    ∀ (category : Category) (doc : NodeForest),
      firstMatchForest isContainerNode doc = none →
      get_shows_by_category category doc = RunResult.panics := by
  intro c doc h
  unfold get_shows_by_category
  rw [h]

/-- C4 witness: the amended claim at a concrete containerless document. -/
theorem claim_C4_missing_container_panics_witness :
    get_shows_by_category Category.Music NodeForest.nil = RunResult.panics :=
  claim_C4_missing_container_panics Category.Music NodeForest.nil rfl

/-! ## Claim C8 -/

/-- C8 counterexample: the rendered line for show B is
`B 🔛 `2025-01-02 (20:00:00)`` — the separator is the emoji `🔛` with the
date/time wrapped in backticks, not the literal `B -> 2025-01-02 (20:00:00)`
the claim states. -/
theorem claim_C8_counterexample :
    renderMessage [showB] = "*הופעות חדשות*:\nB 🔛 `2025-01-02 (20:00:00)`" ∧
    renderMessage [showB] ≠ "*הופעות חדשות*:\nB -> 2025-01-02 (20:00:00)" := by
  constructor
  · rfl
  · decide

/-- C8 amended: for every non-empty new-shows sequence the message is one
header line followed by one line per show, in sequence order, each formatted
`<title> 🔛 `<date> (<time>)`` and joined with the `\r\n` separator. -/
theorem claim_C8_message_format :
    ∀ (s : Show) (rest : List Show),
      renderMessage (s :: rest) =
        "*הופעות חדשות*:\n" ++ String.intercalate ("\r\n") ((s :: rest).map showLine) ∧
      showLine s = s.title ++ " 🔛 `" ++ dispDate s.date ++ " (" ++ dispTime s.time ++ ")`" ∧
      ((s :: rest).map showLine).length = (s :: rest).length := by
  intro s rest
  exact ⟨rfl, rfl, by simp⟩

/-! ## Claim C3 -/

/-- A successful month lookup returns the table position of an exactly
matching entry. -/
theorem monthIndexAux_some :
    ∀ (t : List Char) (ms : List (List Char)) (i : Nat),
      monthIndexAux t ms = some i → ms.get? i = some t := by
  intro t ms
  induction ms with
  | nil => intro i h; exact Option.noConfusion h
  | cons m rest ih =>
    intro i h
    unfold monthIndexAux at h
    by_cases hm : m = t
    · rw [if_pos hm] at h
      cases h
      simp [hm]
    · rw [if_neg hm] at h
      cases hidx : monthIndexAux t rest with
      | none => rw [hidx] at h; exact Option.noConfusion h
      | some j =>
        rw [hidx] at h
        simp only [Option.map] at h
        cases h
        simpa using ih j hidx

/-- C3: `parse_hebrew_date` splits on commas and demands exactly two
segments (`InvalidDateFormat` otherwise); the trimmed second segment must
split on whitespace into exactly three tokens (`InvalidDateFormat`
otherwise); a non-numeric day fails with `InvalidDay`; a month name absent
from the fixed 12-entry Hebrew table fails with `InvalidMonth`; a
non-numeric year fails with `InvalidYear`; an invalid (year, table position
+ 1, day) combination fails with `InvalidDate`; otherwise the date
(year, position + 1, day) is returned — and the spec's example parses to
2027-05-05. -/
theorem claim_C3_parse_hebrew_date :
    (∀ s : String, (splitComma s.data).length ≠ 2 →
      parse_hebrew_date s = .error ParseError.InvalidDateFormat) ∧
    (∀ (s : String) (p0 p1 : List Char), splitComma s.data = [p0, p1] →
      (splitWsL (trimL p1)).length ≠ 3 →
      parse_hebrew_date s = .error ParseError.InvalidDateFormat) ∧
    (∀ (s : String) (p0 p1 dTok mTok yTok : List Char),
      splitComma s.data = [p0, p1] → splitWsL (trimL p1) = [dTok, mTok, yTok] →
      parseU32L dTok = none →
      parse_hebrew_date s = .error ParseError.InvalidDay) ∧
    (∀ (s : String) (p0 p1 dTok mTok yTok : List Char) (day : Nat),
      splitComma s.data = [p0, p1] → splitWsL (trimL p1) = [dTok, mTok, yTok] →
      parseU32L dTok = some day → monthIndexAux mTok hebrewMonths = none →
      parse_hebrew_date s = .error ParseError.InvalidMonth) ∧
    (hebrewMonths.length = 12) ∧
    (∀ (s : String) (p0 p1 dTok mTok yTok : List Char) (day idx : Nat),
      splitComma s.data = [p0, p1] → splitWsL (trimL p1) = [dTok, mTok, yTok] →
      parseU32L dTok = some day → monthIndexAux mTok hebrewMonths = some idx →
      parseI32L yTok = none →
      parse_hebrew_date s = .error ParseError.InvalidYear) ∧
    (∀ (s : String) (p0 p1 dTok mTok yTok : List Char) (day idx : Nat) (year : Int),
      splitComma s.data = [p0, p1] → splitWsL (trimL p1) = [dTok, mTok, yTok] →
      parseU32L dTok = some day → monthIndexAux mTok hebrewMonths = some idx →
      parseI32L yTok = some year → ¬ ValidYmd ⟨year, idx + 1, day⟩ →
      parse_hebrew_date s = .error ParseError.InvalidDate) ∧
    (∀ (s : String) (p0 p1 dTok mTok yTok : List Char) (day idx : Nat) (year : Int),
      splitComma s.data = [p0, p1] → splitWsL (trimL p1) = [dTok, mTok, yTok] →
      parseU32L dTok = some day → monthIndexAux mTok hebrewMonths = some idx →
      parseI32L yTok = some year → ∀ hv : ValidYmd ⟨year, idx + 1, day⟩,
      parse_hebrew_date s = .ok ⟨⟨year, idx + 1, day⟩, hv⟩) ∧
    (parse_hebrew_date ("רביעי, 5 מאי 2027") = .ok ⟨⟨2027, 5, 5⟩, by decide⟩) := by
  refine ⟨?_, ?_, ?_, ?_, rfl, ?_, ?_, ?_, rfl⟩
  · intro s hlen
    unfold parse_hebrew_date
    rcases hsplit : splitComma s.data with _ | ⟨a, _ | ⟨b, _ | ⟨c, t⟩⟩⟩
    · rfl
    · rfl
    · rw [hsplit] at hlen; simp at hlen
    · rfl
  · intro s p0 p1 hsplit htok
    unfold parse_hebrew_date
    rw [hsplit]
    dsimp only
    rcases htk : splitWsL (trimL p1) with _ | ⟨a, _ | ⟨b, _ | ⟨c, _ | ⟨d, t⟩⟩⟩⟩
    · rfl
    · rfl
    · rfl
    · rw [htk] at htok; simp at htok
    · rfl
  · intro s p0 p1 dTok mTok yTok hsplit htok hday
    unfold parse_hebrew_date
    rw [hsplit]; dsimp only
    rw [htok]; dsimp only
    rw [hday]
  · intro s p0 p1 dTok mTok yTok day hsplit htok hday hmon
    unfold parse_hebrew_date
    rw [hsplit]; dsimp only
    rw [htok]; dsimp only
    rw [hday]; dsimp only
    rw [hmon]
  · intro s p0 p1 dTok mTok yTok day idx hsplit htok hday hmon hyear
    unfold parse_hebrew_date
    rw [hsplit]; dsimp only
    rw [htok]; dsimp only
    rw [hday]; dsimp only
    rw [hmon]; dsimp only
    rw [hyear]
  · intro s p0 p1 dTok mTok yTok day idx year hsplit htok hday hmon hyear hnv
    unfold parse_hebrew_date
    rw [hsplit]; dsimp only
    rw [htok]; dsimp only
    rw [hday]; dsimp only
    rw [hmon]; dsimp only
    rw [hyear]; dsimp only
    rw [dif_neg hnv]
  · intro s p0 p1 dTok mTok yTok day idx year hsplit htok hday hmon hyear hv
    unfold parse_hebrew_date
    rw [hsplit]; dsimp only
    rw [htok]; dsimp only
    rw [hday]; dsimp only
    rw [hmon]; dsimp only
    rw [hyear]; dsimp only
    rw [dif_pos hv]

/-- C3 witness: each failure mode and the success mode exercised at a
concrete input. -/
theorem claim_C3_parse_hebrew_date_witness :
    parse_hebrew_date ("אבג") = .error ParseError.InvalidDateFormat ∧
    parse_hebrew_date ("א, ב ג") = .error ParseError.InvalidDateFormat ∧
    parse_hebrew_date ("רביעי, X מאי 2027") = .error ParseError.InvalidDay ∧
    parse_hebrew_date ("רביעי, 5 XX 2027") = .error ParseError.InvalidMonth ∧
    parse_hebrew_date ("רביעי, 5 מאי אלפיים") = .error ParseError.InvalidYear ∧
    parse_hebrew_date ("רביעי, 31 אפריל 2027") = .error ParseError.InvalidDate ∧
    parse_hebrew_date ("רביעי, 5 מאי 2027") = .ok ⟨⟨2027, 5, 5⟩, by decide⟩ := by
  refine ⟨?_, ?_, ?_, ?_, ?_, ?_, ?_⟩
  · exact claim_C3_parse_hebrew_date.1 ("אבג") (by decide)
  · exact claim_C3_parse_hebrew_date.2.1 ("א, ב ג") (("א").data) ((" ב ג").data) rfl (by decide)
  · exact claim_C3_parse_hebrew_date.2.2.1 ("רביעי, X מאי 2027") (("רביעי").data)
      ((" X מאי 2027").data) (("X").data) (("מאי").data) (("2027").data) rfl rfl rfl
  · exact claim_C3_parse_hebrew_date.2.2.2.1 ("רביעי, 5 XX 2027") (("רביעי").data)
      ((" 5 XX 2027").data) (("5").data) (("XX").data) (("2027").data) 5 rfl rfl rfl rfl
  · exact claim_C3_parse_hebrew_date.2.2.2.2.2.1 ("רביעי, 5 מאי אלפיים") (("רביעי").data)
      ((" 5 מאי אלפיים").data) (("5").data) (("מאי").data) (("אלפיים").data) 5 4 rfl rfl rfl rfl rfl
  · exact claim_C3_parse_hebrew_date.2.2.2.2.2.2.1 ("רביעי, 31 אפריל 2027") (("רביעי").data)
      ((" 31 אפריל 2027").data) (("31").data) (("אפריל").data) (("2027").data) 31 3 2027
      rfl rfl rfl rfl rfl (by decide)
  · exact claim_C3_parse_hebrew_date.2.2.2.2.2.2.2.1 ("רביעי, 5 מאי 2027") (("רביעי").data)
      ((" 5 מאי 2027").data) (("5").data) (("מאי").data) (("2027").data) 5 4 2027
      rfl rfl rfl rfl rfl (by decide)

/-! ## Claims C7 and C10 -/

/-- Whether the Hebrew phrase occurs anywhere in a character list. -/
def containsPhraseL : List Char → Bool
  | 'ב' :: 'ש' :: 'ע' :: 'ה' :: ' ' :: _ => true
  | _ :: rest => containsPhraseL rest
  | [] => false

/-- A successful `%H:%M` parse always carries an in-range hour and minute
and a zero second. -/
theorem parseTimeHM_shape (cs : List Char) (t : NaiveTime)
    (h : parseTimeHM cs = some t) :
    t.val.hour < 24 ∧ t.val.minute < 60 ∧ t.val.second = 0 := by
  unfold parseTimeHM at h
  split at h
  · exact Option.noConfusion h
  · split at h
    · exact Option.noConfusion h
    · split at h
      · exact Option.noConfusion h
      · split at h
        · dsimp only at h
          split at h
          · next hv =>
            injection h with h2
            subst h2
            exact ⟨hv.1, hv.2.1, rfl⟩
          · exact Option.noConfusion h
        · exact Option.noConfusion h

/-- An occurrence of the phrase in a tail is an occurrence in the whole
list. -/
theorem containsPhraseL_cons_of_tail (c : Char) (tl : List Char)
    (h : containsPhraseL tl = true) : containsPhraseL (c :: tl) = true := by
  rw [containsPhraseL.eq_def]
  split
  · rfl
  · next c2 rest2 _ heq =>
    injection heq with e1 e2
    rw [← e2]
    exact h
  · next heq => exact List.noConfusion heq

/-- On a list with no occurrence of the phrase, deletion is the identity. -/
theorem deletePhrase_of_not_contains :
    ∀ cs : List Char, containsPhraseL cs = false → deletePhrase cs = cs := by
  intro cs
  induction cs with
  | nil => intro _; rfl
  | cons c1 tl ih =>
    intro hc
    rw [deletePhrase.eq_def]
    split
    · next heq =>
      rw [heq] at hc
      exact absurd hc (by simp [containsPhraseL])
    · next c rest2 _ heq =>
      injection heq with e1 e2
      subst e1
      subst e2
      have hct : containsPhraseL tl = false := by
        cases hc2 : containsPhraseL tl with
        | false => rfl
        | true => rw [containsPhraseL_cons_of_tail c1 tl hc2] at hc; exact hc
      rw [ih hct]
    · next heq => exact List.noConfusion heq

/-- C10: the phrase removal deletes every (leftmost, non-overlapping)
occurrence of `"בשעה "` anywhere in the trimmed text — not only a leading
prefix — and the parse succeeds exactly when what remains after deletion is
a valid 24-hour `HH:MM`: mid-string and repeated occurrences still parse,
and phrase-free text is passed through unchanged. -/
theorem claim_C10_replace_deletes_all_occurrences :
    (∀ s : String, parse_time s = parseTimeHM (deletePhrase (trimL s.data))) ∧
    (∀ s : String, (parse_time s).isSome = (parseTimeHM (deletePhrase (trimL s.data))).isSome) ∧
    (∀ cs : List Char, containsPhraseL cs = false → deletePhrase cs = cs) ∧
    (parse_time ("20:בשעה 30") = some ⟨⟨20, 30, 0⟩, by decide⟩) ∧
    (parse_time ("בשעה בשעה 20:30") = some ⟨⟨20, 30, 0⟩, by decide⟩) ∧
    (parse_time ("בשעה 20:בשעה 30") = some ⟨⟨20, 30, 0⟩, by decide⟩) := by
  exact ⟨fun s => rfl, fun s => rfl, deletePhrase_of_not_contains, rfl, rfl, rfl⟩

/-- C10 witness: the pass-through conjunct applied at the concrete
phrase-free string `"20:30"`. -/
theorem claim_C10_replace_deletes_all_occurrences_witness :
    deletePhrase (("20:30").data) = ("20:30").data :=
  claim_C10_replace_deletes_all_occurrences.2.2.1 (("20:30").data) rfl

/-! ## Claim C5 -/

/-- A successful extraction loop produces exactly one show per item node, in
order. -/
theorem mapExtract_ok_pointwise :
    ∀ (category : Category) (items : List Node) (shows : List Show),
      mapExtract category items = .ok shows →
      List.Forall₂ (fun el s => extractItem category el = .ok s) items shows := by
  intro c items
  induction items with
  | nil =>
    intro shows h
    unfold mapExtract at h
    injection h with h2
    subst h2
    exact List.Forall₂.nil
  | cons el rest ih =>
    intro shows h
    unfold mapExtract at h
    split at h
    · exact Except.noConfusion h
    · next s0 hs0 =>
      split at h
      · exact Except.noConfusion h
      · next ss hss =>
        injection h with h2
        subst h2
        exact List.Forall₂.cons hs0 (ih ss hss)

/-- If any item node fails to extract, the whole loop fails. -/
theorem mapExtract_not_ok_of_mem :
    ∀ (category : Category) (items : List Node) (el : Node),
      el ∈ items → (∀ s, extractItem category el ≠ .ok s) →
      ∀ shows, mapExtract category items ≠ .ok shows := by
  intro c items
  induction items with
  | nil => intro el hmem; exact absurd hmem (List.not_mem_nil el)
  | cons hd rest ih =>
    intro el hmem hfail shows h
    unfold mapExtract at h
    split at h
    · exact Except.noConfusion h
    · next s0 hs0 =>
      rcases List.mem_cons.mp hmem with he | he
      · subst he
        exact hfail s0 hs0
      · split at h
        · exact Except.noConfusion h
        · next ss hss => exact ih el he hfail ss hss

/-- Inversion of a successful item extraction: every field of the produced
show comes from its extractor. -/
theorem extractItem_ok_inv (category : Category) (el : Node) (s : Show)
    (h : extractItem category el = .ok s) :
    s.title = extractTitle el ∧ extractDate el = .ok s.date ∧
    extractTime el = .ok s.time ∧ s.category = category := by
  unfold extractItem at h
  split at h
  · exact Except.noConfusion h
  · next date hdate =>
    split at h
    · exact Except.noConfusion h
    · next time htime =>
      injection h with h2
      subst h2
      exact ⟨rfl, hdate, htime, rfl⟩

/-- The category of every extracted show is the caller-supplied argument. -/
theorem extractItem_category (category : Category) (el : Node) (s : Show)
    (h : extractItem category el = .ok s) : s.category = category :=
  (extractItem_ok_inv category el s h).2.2.2

/-- A missing title heading leaves `title` at the empty-string default. -/
theorem extractItem_title_default (category : Category) (el : Node) (s : Show)
    (hh2 : firstDescendant isH2Node el = none)
    (h : extractItem category el = .ok s) : s.title = "" := by
  have h1 := (extractItem_ok_inv category el s h).1
  rw [h1]
  unfold extractTitle
  rw [hh2]

/-- A missing date sub-node leaves `date` at the 1970-01-01 sentinel. -/
theorem extractItem_date_default (category : Category) (el : Node) (s : Show)
    (hd : firstDescendant isDateNode el = none)
    (h : extractItem category el = .ok s) : s.date = epochDate := by
  have h1 := (extractItem_ok_inv category el s h).2.1
  unfold extractDate at h1
  rw [hd] at h1
  injection h1 with h2
  exact h2.symm

/-- A missing time sub-node leaves `time` at the 00:00:00 sentinel. -/
theorem extractItem_time_default (category : Category) (el : Node) (s : Show)
    (ht : firstDescendant isTimeNode el = none)
    (h : extractItem category el = .ok s) : s.time = midnightTime := by
  have h1 := (extractItem_ok_inv category el s h).2.2.1
  unfold extractTime at h1
  rw [ht] at h1
  injection h1 with h2
  exact h2.symm

/-- An item missing both optional date and time sub-nodes never raises: it
yields a show with both sentinel defaults. -/
theorem extractItem_defaults_no_raise (category : Category) (el : Node)
    (hd : firstDescendant isDateNode el = none)
    (ht : firstDescendant isTimeNode el = none) :
    ∃ s, extractItem category el = .ok s ∧ s.date = epochDate ∧ s.time = midnightTime := by
  have h1 : extractDate el = .ok epochDate := by unfold extractDate; rw [hd]
  have h2 : extractTime el = .ok midnightTime := by unfold extractTime; rw [ht]
  unfold extractItem
  rw [h1, h2]
  exact ⟨_, rfl, rfl, rfl⟩

/-- A present date sub-node whose trimmed text fails `parse_hebrew_date`
propagates exactly that parse error. -/
theorem extractItem_date_error (category : Category) (el : Node) (dn : Node)
    (e : ParseError) (hd : firstDescendant isDateNode el = some dn)
    (hp : parse_hebrew_date (String.mk (trimL (textContentNode dn))) = .error e) :
    extractItem category el = .error e := by
  have h1 : extractDate el = .error e := by
    unfold extractDate
    rw [hd]
    dsimp only
    exact hp
  unfold extractItem
  rw [h1]

/-- A present time sub-node whose normalized text fails the `%H:%M` parse
prevents the item from extracting. -/
theorem extractItem_time_error (category : Category) (el : Node) (tn : Node)
    (ht : firstDescendant isTimeNode el = some tn)
    (hp : parse_time (String.mk (textContentNode tn)) = none) :
    ∀ s, extractItem category el ≠ .ok s := by
  intro s h
  have h1 : extractTime el = .error ParseError.InvalidTimeFormat := by
    unfold extractTime
    rw [ht]
    dsimp only
    rw [hp]
  have h2 := (extractItem_ok_inv category el s h).2.2.1
  rw [h1] at h2
  exact Except.noConfusion h2

/-- C5: with the listing container present, extraction runs `extractItem`
over the detail blocks in document order — succeeding with exactly one show
per item (`Forall₂`) or propagating the first item failure; per item, a
missing optional sub-node (title heading, date, time) leaves the field at
its sentinel default without raising, a present but malformed date or time
sub-node aborts extraction, and the category is always the caller's
argument. -/
theorem claim_C5_item_extraction :
    (∀ (category : Category) (doc : NodeForest) (container : Node),
      firstMatchForest isContainerNode doc = some container →
      (∀ shows, mapExtract category (selectDescendants isDetailsNode container) = .ok shows →
        get_shows_by_category category doc = .ok shows ∧
        List.Forall₂ (fun el s => extractItem category el = .ok s)
          (selectDescendants isDetailsNode container) shows) ∧
      (∀ e, mapExtract category (selectDescendants isDetailsNode container) = .error e →
        get_shows_by_category category doc = .error e)) ∧
    (∀ (category : Category) (el : Node) (s : Show),
      extractItem category el = .ok s → s.category = category) ∧
    (∀ (category : Category) (el : Node) (s : Show),
      firstDescendant isH2Node el = none → extractItem category el = .ok s →
      s.title = "") ∧
    (∀ (category : Category) (el : Node) (s : Show),
      firstDescendant isDateNode el = none → extractItem category el = .ok s →
      s.date = epochDate) ∧
    (∀ (category : Category) (el : Node) (s : Show),
      firstDescendant isTimeNode el = none → extractItem category el = .ok s →
      s.time = midnightTime) ∧
    (∀ (category : Category) (el : Node),
      firstDescendant isDateNode el = none → firstDescendant isTimeNode el = none →
      ∃ s, extractItem category el = .ok s ∧ s.date = epochDate ∧ s.time = midnightTime) ∧
    (∀ (category : Category) (el : Node) (dn : Node) (e : ParseError),
      firstDescendant isDateNode el = some dn →
      parse_hebrew_date (String.mk (trimL (textContentNode dn))) = .error e →
      extractItem category el = .error e) ∧
    (∀ (category : Category) (el : Node) (tn : Node),
      firstDescendant isTimeNode el = some tn →
      parse_time (String.mk (textContentNode tn)) = none →
      ∀ s, extractItem category el ≠ .ok s) ∧
    (∀ (category : Category) (doc : NodeForest) (container el : Node),
      firstMatchForest isContainerNode doc = some container →
      el ∈ selectDescendants isDetailsNode container →
      (∀ s, extractItem category el ≠ .ok s) →
      ∀ shows, get_shows_by_category category doc ≠ .ok shows) := by
  refine ⟨?_, extractItem_category, extractItem_title_default, extractItem_date_default,
    extractItem_time_default, extractItem_defaults_no_raise, extractItem_date_error,
    extractItem_time_error, ?_⟩
  · intro category doc container hc
    constructor
    · intro shows hok
      constructor
      · unfold get_shows_by_category
        rw [hc]
        dsimp only
        rw [hok]
      · exact mapExtract_ok_pointwise category _ shows hok
    · intro e herr
      unfold get_shows_by_category
      rw [hc]
      dsimp only
      rw [herr]
  · intro category doc container el hc hmem hfail shows h
    unfold get_shows_by_category at h
    rw [hc] at h
    dsimp only at h
    split at h
    · exact RunResult.noConfusion h
    · next ss hss =>
      exact mapExtract_not_ok_of_mem category _ el hmem hfail ss hss

/-! ## Concrete markup fixtures -/

/-- Singleton forest. -/
def forest1 (n : Node) : NodeForest := .cons n .nil

/-- Two-node forest. -/
def forest2 (a b : Node) : NodeForest := .cons a (.cons b .nil)

/-- Three-node forest. -/
def forest3 (a b c : Node) : NodeForest := .cons a (.cons b (.cons c .nil))

/-- A fully populated detail block. -/
def sampleItemFull : Node :=
  .element ("div") (some ("details-container")) (forest3
    (.element ("h2") none (forest1 (.text ("Show A"))))
    (.element ("div") (some ("date_container")) (forest1 (.text (" רביעי, 5 מאי 2027 "))))
    (.element ("div") (some ("time_container")) (forest1 (.text ("בשעה 20:30")))))

/-- A detail block with no sub-nodes at all. -/
def sampleItemBare : Node := .element ("div") (some ("details-container")) .nil

/-- A listing container with one full and one bare detail block. -/
def sampleContainer : Node :=
  .element ("div") (some ("category_shows")) (forest2 sampleItemFull sampleItemBare)

/-- A well-formed document. -/
def sampleDoc : NodeForest := forest1 sampleContainer

/-- A detail block with a malformed date sub-node. -/
def sampleBadItem : Node :=
  .element ("div") (some ("details-container")) (forest1
    (.element ("div") (some ("date_container")) (forest1 (.text ("not a date")))))

/-- The container of the malformed document. -/
def sampleBadContainer : Node :=
  .element ("div") (some ("category_shows")) (forest1 sampleBadItem)

/-- A document whose only detail block has a malformed date. -/
def sampleBadDoc : NodeForest := forest1 sampleBadContainer

/-- The show extracted from `sampleItemFull`. -/
def mayShow : Show := ⟨"Show A", ⟨⟨2027, 5, 5⟩, by decide⟩, ⟨⟨20, 30, 0⟩, by decide⟩, Category.Comedy⟩

/-- The sentinel-filled show extracted from `sampleItemBare`. -/
def bareShow : Show := ⟨"", epochDate, midnightTime, Category.Comedy⟩

/-- C5 witness: the pipeline on a concrete document (one full item, one bare
item), the title default on the bare item, and the abort on a concrete
malformed date. -/
theorem claim_C5_item_extraction_witness :
    (get_shows_by_category Category.Comedy sampleDoc = .ok [mayShow, bareShow] ∧
      List.Forall₂ (fun el s => extractItem Category.Comedy el = .ok s)
        (selectDescendants isDetailsNode sampleContainer) [mayShow, bareShow]) ∧
    bareShow.title = "" ∧
    get_shows_by_category Category.Comedy sampleBadDoc = .error ParseError.InvalidDateFormat := by
  refine ⟨?_, ?_, ?_⟩
  · exact (claim_C5_item_extraction.1 Category.Comedy sampleDoc sampleContainer rfl).1
      [mayShow, bareShow] rfl
  · exact claim_C5_item_extraction.2.2.1 Category.Comedy sampleItemBare bareShow rfl rfl
  · exact (claim_C5_item_extraction.1 Category.Comedy sampleBadDoc sampleBadContainer rfl).2
      ParseError.InvalidDateFormat rfl

/-! ## Claim C6 -/

/-- `Ordering.then` yields `gt` exactly when the primary key is greater or
tied with a greater secondary key. -/
theorem then_eq_gt_iff (x y : Ordering) :
    x.then y = .gt ↔ x = .gt ∨ (x = .eq ∧ y = .gt) := by
  cases x <;> simp [Ordering.then]

/-- `Ordering.then` yields `eq` exactly when both keys tie. -/
theorem then_eq_eq_iff (x y : Ordering) :
    x.then y = .eq ↔ x = .eq ∧ y = .eq := by
  cases x <;> simp [Ordering.then]

/-- `cmpInt` returns `gt` iff the first argument is greater. -/
theorem cmpInt_gt_iff (a b : Int) : cmpInt a b = .gt ↔ b < a := by
  unfold cmpInt
  split_ifs with h1 h2 <;> simp_all <;> omega

/-- `cmpInt` returns `eq` iff the arguments are equal. -/
theorem cmpInt_eq_iff (a b : Int) : cmpInt a b = .eq ↔ a = b := by
  unfold cmpInt
  split_ifs with h1 h2 <;> simp_all <;> omega

/-- `cmpNat` returns `gt` iff the first argument is greater. -/
theorem cmpNat_gt_iff (a b : Nat) : cmpNat a b = .gt ↔ b < a := by
  unfold cmpNat
  split_ifs with h1 h2 <;> simp_all <;> omega

/-- `cmpNat` returns `eq` iff the arguments are equal. -/
theorem cmpNat_eq_iff (a b : Nat) : cmpNat a b = .eq ↔ a = b := by
  unfold cmpNat
  split_ifs with h1 h2 <;> simp_all <;> omega

/-- Mixed-radix linearization of the (date, time) sort key: comparing
`keyZ` agrees with the lexicographic comparator because every component is
within its radix. -/
def keyZ (s : Show) : Int :=
  (((((s.date.val.year + 262144) * 13 + (s.date.val.month : Int)) * 32
        + (s.date.val.day : Int)) * 24 + (s.time.val.hour : Int)) * 60
      + (s.time.val.minute : Int)) * 60 + (s.time.val.second : Int)

/-- No month has more than 31 days. -/
theorem daysInMonth_le (y : Int) (m : Nat) : daysInMonth y m ≤ 31 := by
  unfold daysInMonth
  split
  · split <;> omega
  all_goals omega

/-- The field bounds packaged for arithmetic reasoning. -/
theorem show_bounds (s : Show) :
    -262144 ≤ s.date.val.year ∧ s.date.val.year ≤ 262143 ∧
    1 ≤ s.date.val.month ∧ s.date.val.month ≤ 12 ∧
    1 ≤ s.date.val.day ∧ s.date.val.day ≤ 31 ∧
    s.time.val.hour < 24 ∧ s.time.val.minute < 60 ∧ s.time.val.second < 60 := by
  obtain ⟨h1, h2, h3, h4, h5, h6⟩ := s.date.prop
  obtain ⟨h7, h8, h9⟩ := s.time.prop
  exact ⟨h1, h2, h3, h4, h5, h6.trans (daysInMonth_le _ _), h7, h8, h9⟩

/-- The comparator reports `gt` exactly when the linearized key is
greater. -/
theorem cmpShow_gt_iff (a b : Show) : cmpShow a b = .gt ↔ keyZ b < keyZ a := by
  obtain ⟨a1, a2, a3, a4, a5, a6, a7, a8, a9⟩ := show_bounds a
  obtain ⟨b1, b2, b3, b4, b5, b6, b7, b8, b9⟩ := show_bounds b
  unfold cmpShow cmpDate cmpTime keyZ
  simp only [then_eq_gt_iff, then_eq_eq_iff, cmpInt_gt_iff, cmpInt_eq_iff,
    cmpNat_gt_iff, cmpNat_eq_iff]
  omega

/-- `showLE` holds exactly when the linearized key is not greater. -/
theorem showLE_iff (a b : Show) : showLE a b = true ↔ keyZ a ≤ keyZ b := by
  unfold showLE
  cases hc : cmpShow a b with
  | lt =>
    have hne : ¬ keyZ b < keyZ a := fun hlt =>
      Ordering.noConfusion (hc ▸ (cmpShow_gt_iff a b).mpr hlt)
    exact ⟨fun _ => by omega, fun _ => rfl⟩
  | eq =>
    have hne : ¬ keyZ b < keyZ a := fun hlt =>
      Ordering.noConfusion (hc ▸ (cmpShow_gt_iff a b).mpr hlt)
    exact ⟨fun _ => by omega, fun _ => rfl⟩
  | gt =>
    have hlt : keyZ b < keyZ a := (cmpShow_gt_iff a b).mp hc
    exact ⟨fun hcontra => Bool.noConfusion hcontra, fun hle => absurd hle (by omega)⟩

/-- The sort relation is transitive. -/
theorem showLE_trans : ∀ (a b c : Show), showLE a b → showLE b c → showLE a c := by
  intro a b c hab hbc
  rw [showLE_iff] at hab hbc ⊢
  omega

/-- The sort relation is total. -/
theorem showLE_total : ∀ (a b : Show), showLE a b || showLE b a := by
  intro a b
  rcases Bool.eq_false_or_eq_true (showLE a b) with h | h
  · rw [h]
    rfl
  · have h3 := showLE_iff a b
    rw [h] at h3
    have h4 : ¬ keyZ a ≤ keyZ b := fun hle => Bool.false_ne_true (h3.mpr hle)
    have h2 : keyZ b ≤ keyZ a := by omega
    rw [h, (showLE_iff b a).mpr h2]
    rfl

/-- C6: the aggregator concatenates the Comedy result before the Music
result and applies the stable merge sort keyed by (date, time) ascending:
the output is sorted by that key, and any two shows with equal date and
time occurring in order in the concatenation occur in the same relative
order in the output (category-fetch order is the tiebreak). -/
theorem claim_C6_aggregation :
    ∀ (docs : Category → NodeForest) (comedyShows musicShows : List Show),
      get_shows_by_category Category.Comedy (docs Category.Comedy) = .ok comedyShows →
      get_shows_by_category Category.Music (docs Category.Music) = .ok musicShows →
      get_shows docs = .ok (List.mergeSort (comedyShows ++ musicShows) showLE) ∧
      (List.mergeSort (comedyShows ++ musicShows) showLE).Pairwise
        (fun a b => showLE a b = true) ∧
      (∀ a b : Show, a.date = b.date → a.time = b.time →
        [a, b].Sublist (comedyShows ++ musicShows) →
        [a, b].Sublist (List.mergeSort (comedyShows ++ musicShows) showLE)) := by
  intro docs cs ms hc hm
  refine ⟨?_, ?_, ?_⟩
  · unfold get_shows
    rw [hc]
    dsimp only
    rw [hm]
  · exact List.sorted_mergeSort showLE_trans showLE_total (cs ++ ms)
  · intro a b hd ht hsub
    have hk : keyZ a = keyZ b := by
      unfold keyZ
      rw [hd, ht]
    exact List.pair_sublist_mergeSort showLE_trans showLE_total
      ((showLE_iff a b).mpr (le_of_eq hk)) hsub

/-- An all-default Music show tying with `bareShow` on (date, time). -/
def tieShow : Show := ⟨"B", epochDate, midnightTime, Category.Music⟩

/-- A Music document producing exactly `tieShow`. -/
def musicDoc : NodeForest :=
  forest1 (.element ("div") (some ("category_shows")) (forest1
    (.element ("div") (some ("details-container")) (forest1
      (.element ("h2") none (forest1 (.text ("B"))))))))

/-- The per-category documents of the C6 witness. -/
def docsFixture : Category → NodeForest
  | Category.Comedy => sampleDoc
  | Category.Music => musicDoc
  | Category.None => .nil

/-- C6 witness: the aggregation equation at concrete documents, and the
stability conclusion for the concrete (date, time)-tied pair `bareShow`
(Comedy, fetched first) and `tieShow` (Music, fetched second). -/
theorem claim_C6_aggregation_witness :
    get_shows docsFixture = .ok (List.mergeSort ([mayShow, bareShow] ++ [tieShow]) showLE) ∧
    [bareShow, tieShow].Sublist (List.mergeSort ([mayShow, bareShow] ++ [tieShow]) showLE) := by
  have h := claim_C6_aggregation docsFixture [mayShow, bareShow] [tieShow] rfl rfl
  refine ⟨h.1, h.2.2 bareShow tieShow rfl rfl ?_⟩
  exact List.Sublist.cons mayShow (List.Sublist.refl [bareShow, tieShow])

/-! ## Claim C9: decimal round-trip lemmas -/

/-- A digit character is not whitespace. -/
theorem isWs_of_isDigit (c : Char) (h : c.isDigit = true) : isWs c = false := by
  cases hw : c.isWhitespace with
  | false => exact hw
  | true =>
    exfalso
    have hor : c = ' ' ∨ c = '\t' ∨ c = '\r' ∨ c = '\n' := by
      simpa [Char.isWhitespace, or_assoc] using hw
    rcases hor with h1 | h1 | h1 | h1 <;> subst h1 <;> exact absurd h (by decide)

/-- A digit character is neither sign character. -/
theorem ne_sign_of_isDigit (c : Char) (h : c.isDigit = true) : c ≠ '-' ∧ c ≠ '+' := by
  constructor <;> intro he <;> subst he <;> exact absurd h (by decide)

/-- Digit value of a rendered digit. -/
theorem digitVal_digitChar (d : Nat) (h : d < 10) : digitVal (digitChar d) = d := by
  interval_cases d <;> decide

/-- A rendered digit is a digit character. -/
theorem isDigit_digitChar (d : Nat) (h : d < 10) : (digitChar d).isDigit = true := by
  interval_cases d <;> decide

/-- The fuelled renderer is fuel-irrelevant above its argument and appends
to its accumulator. -/
theorem natDigitsAux_eq :
    ∀ (n fuel : Nat) (acc : List Char), n < fuel →
      natDigitsAux fuel n acc = natToDigits n ++ acc := by
  intro n
  induction n using Nat.strong_induction_on with
  | _ n ih =>
    intro fuel acc h
    match fuel with
    | 0 => omega
    | f + 1 =>
      by_cases h10 : n < 10
      · simp only [natDigitsAux, if_pos h10, natToDigits]
        rfl
      · have hd : n / 10 < n := Nat.div_lt_self (by omega) (by omega)
        simp only [natDigitsAux, if_neg h10, natToDigits]
        rw [ih (n / 10) hd f (digitChar (n % 10) :: acc) (by omega)]
        rw [ih (n / 10) hd n (digitChar (n % 10) :: []) (by omega)]
        simp

/-- One-step unfolding of the decimal renderer. -/
theorem natToDigits_unfold (n : Nat) :
    natToDigits n =
      if n < 10 then [digitChar n]
      else natToDigits (n / 10) ++ [digitChar (n % 10)] := by
  by_cases h10 : n < 10
  · rw [if_pos h10]
    simp only [natToDigits, natDigitsAux, if_pos h10]
  · rw [if_neg h10]
    have hd : n / 10 < n := Nat.div_lt_self (by omega) (by omega)
    have hstep : natDigitsAux (n + 1) n [] = natDigitsAux n (n / 10) [digitChar (n % 10)] := by
      simp only [natDigitsAux]
      rw [if_neg h10]
    show natDigitsAux (n + 1) n [] = _
    rw [hstep, natDigitsAux_eq (n / 10) n [digitChar (n % 10)] hd]

/-- Every character of a rendered number is a digit. -/
theorem natToDigits_all_digits : ∀ n : Nat, ∀ c ∈ natToDigits n, c.isDigit = true := by
  intro n
  induction n using Nat.strong_induction_on with
  | _ n ih =>
    intro c hc
    rw [natToDigits_unfold] at hc
    by_cases h10 : n < 10
    · rw [if_pos h10] at hc
      rcases List.mem_singleton.mp hc with h2
      subst h2
      exact isDigit_digitChar n h10
    · rw [if_neg h10] at hc
      rcases List.mem_append.mp hc with h2 | h2
      · exact ih (n / 10) (Nat.div_lt_self (by omega) (by omega)) c h2
      · rcases List.mem_singleton.mp h2 with h3
        subst h3
        exact isDigit_digitChar (n % 10) (Nat.mod_lt n (by omega))

/-- A rendered number is never empty. -/
theorem natToDigits_ne_nil (n : Nat) : natToDigits n ≠ [] := by
  rw [natToDigits_unfold]
  by_cases h10 : n < 10
  · rw [if_pos h10]
    exact List.cons_ne_nil _ _
  · rw [if_neg h10]
    simp

/-- Folding one more digit multiplies by ten and adds it. -/
theorem valOfDigits_append_single (cs : List Char) (c : Char) :
    valOfDigits (cs ++ [c]) = 10 * valOfDigits cs + digitVal c := by
  unfold valOfDigits
  rw [List.foldl_append]
  rfl

/-- Rendering then evaluating is the identity. -/
theorem valOfDigits_natToDigits : ∀ n : Nat, valOfDigits (natToDigits n) = n := by
  intro n
  induction n using Nat.strong_induction_on with
  | _ n ih =>
    rw [natToDigits_unfold]
    by_cases h10 : n < 10
    · rw [if_pos h10]
      show 10 * 0 + digitVal (digitChar n) = n
      rw [digitVal_digitChar n h10]
      omega
    · rw [if_neg h10]
      rw [valOfDigits_append_single]
      rw [ih (n / 10) (Nat.div_lt_self (by omega) (by omega))]
      rw [digitVal_digitChar (n % 10) (Nat.mod_lt n (by omega))]
      omega

/-- Numbers below `10 ^ k` render with at most `k` digits. -/
theorem natToDigits_length_le :
    ∀ (k n : Nat), 1 ≤ k → n < 10 ^ k → (natToDigits n).length ≤ k := by
  intro k
  induction k with
  | zero => intro n h1; omega
  | succ k ih =>
    intro n _ hn
    rw [natToDigits_unfold]
    by_cases h10 : n < 10
    · rw [if_pos h10]
      simp
    · rw [if_neg h10]
      have hk : 1 ≤ k := by
        by_contra hk0
        have : k = 0 := by omega
        subst this
        simp at hn
        omega
      have hdiv : n / 10 < 10 ^ k := by
        rw [Nat.div_lt_iff_lt_mul (by omega : 0 < 10)]
        calc n < 10 ^ (k + 1) := hn
        _ = 10 ^ k * 10 := by rw [Nat.pow_succ]
      have := ih (n / 10) hk hdiv
      simp only [List.length_append, List.length_cons, List.length_nil]
      omega

/-- Zero padding keeps every character a digit. -/
theorem padZeros_all_digits (w : Nat) (cs : List Char)
    (h : ∀ c ∈ cs, c.isDigit = true) : ∀ c ∈ padZeros w cs, c.isDigit = true := by
  intro c hc
  unfold padZeros at hc
  rcases List.mem_append.mp hc with h2 | h2
  · rw [List.eq_of_mem_replicate h2]
    decide
  · exact h c h2

/-- Zero padding reaches exactly the requested width. -/
theorem padZeros_length (w : Nat) (cs : List Char) (h : cs.length ≤ w) :
    (padZeros w cs).length = w := by
  unfold padZeros
  simp only [List.length_append, List.length_replicate]
  omega

/-- Padding a nonempty digit string keeps it nonempty. -/
theorem padZeros_ne_nil (w : Nat) (cs : List Char) (h : cs ≠ []) :
    padZeros w cs ≠ [] := by
  unfold padZeros
  intro he
  rcases List.append_eq_nil.mp he with ⟨_, h2⟩
  exact h h2

/-- Leading zeros do not change the numeric value. -/
theorem valOfDigits_padZeros (w : Nat) (cs : List Char) :
    valOfDigits (padZeros w cs) = valOfDigits cs := by
  unfold padZeros
  generalize w - cs.length = k
  induction k with
  | zero => rfl
  | succ k ih =>
    rw [List.replicate_succ, List.cons_append]
    show valOfDigits (List.replicate k '0' ++ cs) = valOfDigits cs
    exact ih

/-- Consuming a digit string of exactly the field width stops at the
boundary. -/
theorem takeDigits_exact :
    ∀ (ds rest : List Char) (w : Nat), ds.length = w →
      (∀ c ∈ ds, c.isDigit = true) → takeDigits w (ds ++ rest) = (ds, rest) := by
  intro ds
  induction ds with
  | nil =>
    intro rest w hw _
    subst hw
    rfl
  | cons c tl ih =>
    intro rest w hw hd
    subst hw
    show takeDigits (tl.length + 1) (c :: (tl ++ rest)) = (c :: tl, rest)
    unfold takeDigits
    rw [if_pos (hd c (List.mem_cons_self c tl))]
    rw [ih rest tl.length rfl (fun x hx => hd x (List.mem_cons_of_mem c hx))]

/-- Unlimited digit consumption stops exactly at the first non-digit. -/
theorem takeDigitsU_append :
    ∀ (ds rest : List Char), (∀ c ∈ ds, c.isDigit = true) →
      (∀ c cs2, rest = c :: cs2 → c.isDigit = false) →
      takeDigitsU (ds ++ rest) = (ds, rest) := by
  intro ds
  induction ds with
  | nil =>
    intro rest _ hrest
    match rest with
    | [] => rfl
    | c :: cs2 =>
      show takeDigitsU (c :: cs2) = ([], c :: cs2)
      unfold takeDigitsU
      rw [hrest c cs2 rfl]
      rfl
  | cons c tl ih =>
    intro rest hd hrest
    show takeDigitsU (c :: (tl ++ rest)) = (c :: tl, rest)
    unfold takeDigitsU
    rw [if_pos (hd c (List.mem_cons_self c tl))]
    rw [ih rest (fun x hx => hd x (List.mem_cons_of_mem c hx)) hrest]

/-- A list starting with a non-whitespace character is untouched by
`trim_start`. -/
theorem trimStartL_cons (c : Char) (tl : List Char) (h : isWs c = false) :
    trimStartL (c :: tl) = c :: tl := by
  unfold trimStartL
  simp [List.dropWhile_cons, h]

/-- A nonempty list whose head is not whitespace is untouched by
`trim_start`. -/
theorem trimStartL_eq_self (cs : List Char)
    (h : ∀ c cs2, cs = c :: cs2 → isWs c = false) : trimStartL cs = cs := by
  match cs with
  | [] => rfl
  | c :: tl => exact trimStartL_cons c tl (h c tl rfl)

/-- A digit-headed segment is untouched by `trim_start`. -/
theorem trimStartL_digits (cs rest : List Char) (hne : cs ≠ [])
    (hall : ∀ c ∈ cs, c.isDigit = true) : trimStartL (cs ++ rest) = cs ++ rest := by
  obtain ⟨c, tl, hct⟩ := List.exists_cons_of_ne_nil hne
  subst hct
  rw [List.cons_append]
  exact trimStartL_cons c (tl ++ rest)
    (isWs_of_isDigit c (hall c (List.mem_cons_self c tl)))

/-- A nonempty list is not `isEmpty`. -/
theorem isEmpty_false_of_ne_nil {α : Type} (l : List α) (h : l ≠ []) :
    l.isEmpty = false := by
  match l with
  | [] => exact absurd rfl h
  | _ :: _ => rfl

/-- A two-digit zero-padded field scans back to its value. -/
theorem scanNum2_pad (n : Nat) (h : n < 100) (rest : List Char) :
    scanNum2 (padZeros 2 (natToDigits n) ++ rest) = some (n, rest) := by
  have hall := padZeros_all_digits 2 _ (natToDigits_all_digits n)
  have hlen := padZeros_length 2 (natToDigits n)
    (natToDigits_length_le 2 n (by omega) (by omega))
  have hne := padZeros_ne_nil 2 (natToDigits n) (natToDigits_ne_nil n)
  unfold scanNum2
  rw [takeDigits_exact (padZeros 2 (natToDigits n)) rest 2 hlen hall]
  dsimp only
  rw [isEmpty_false_of_ne_nil _ hne]
  rw [if_neg Bool.false_ne_true]
  rw [valOfDigits_padZeros, valOfDigits_natToDigits]

/-- A four-digit zero-padded field scans back to its value. -/
theorem scanNum4_pad (n : Nat) (h : n < 10000) (rest : List Char) :
    scanNum4 (padZeros 4 (natToDigits n) ++ rest) = some (n, rest) := by
  have hall := padZeros_all_digits 4 _ (natToDigits_all_digits n)
  have hlen := padZeros_length 4 (natToDigits n)
    (natToDigits_length_le 4 n (by omega) (by omega))
  have hne := padZeros_ne_nil 4 (natToDigits n) (natToDigits_ne_nil n)
  unfold scanNum4
  rw [takeDigits_exact (padZeros 4 (natToDigits n)) rest 4 hlen hall]
  dsimp only
  rw [isEmpty_false_of_ne_nil _ hne]
  rw [if_neg Bool.false_ne_true]
  rw [valOfDigits_padZeros, valOfDigits_natToDigits]

/-- An unlimited-width zero-padded field scans back to its value when
followed by a non-digit. -/
theorem scanNumU_pad (n w : Nat) (rest : List Char)
    (hrest : ∀ c cs2, rest = c :: cs2 → c.isDigit = false) :
    scanNumU (padZeros w (natToDigits n) ++ rest) = some (n, rest) := by
  have hall := padZeros_all_digits w _ (natToDigits_all_digits n)
  have hne := padZeros_ne_nil w (natToDigits n) (natToDigits_ne_nil n)
  unfold scanNumU
  rw [takeDigitsU_append (padZeros w (natToDigits n)) rest hall hrest]
  dsimp only
  rw [isEmpty_false_of_ne_nil _ hne]
  rw [if_neg Bool.false_ne_true]
  rw [valOfDigits_padZeros, valOfDigits_natToDigits]

/-- When the input starts with neither sign, the year field is the
unsigned four-digit scan. -/
theorem scanYear_not_sign (cs : List Char)
    (h1 : ∀ r, cs ≠ '-' :: r) (h2 : ∀ r, cs ≠ '+' :: r) :
    scanYear cs =
      (match scanNum4 cs with
       | none => none
       | some (v, rest) => some ((v : Int), rest)) := by
  rw [scanYear.eq_def]
  split
  · next r => exact absurd rfl (h1 r)
  · next r => exact absurd rfl (h2 r)
  · rfl

/-- The rendered year of a date in range scans back to its value. -/
theorem scanYear_disp (y : Int) (hy1 : -262144 ≤ y) (hy2 : y ≤ 262143)
    (rest : List Char) (hrest : ∀ c cs2, rest = c :: cs2 → c.isDigit = false) :
    scanYear (dispYearL y ++ rest) = some (y, rest) := by
  unfold dispYearL
  by_cases h0 : 0 ≤ y
  · rw [if_pos h0]
    by_cases h9 : y ≤ 9999
    · rw [if_pos h9]
      have hall := padZeros_all_digits 4 _ (natToDigits_all_digits y.toNat)
      have hne := padZeros_ne_nil 4 (natToDigits y.toNat) (natToDigits_ne_nil y.toNat)
      obtain ⟨c, tl, hct⟩ := List.exists_cons_of_ne_nil hne
      have hcd : c.isDigit = true := hall c (by rw [hct]; exact List.mem_cons_self c tl)
      rw [scanYear_not_sign (padZeros 4 (natToDigits y.toNat) ++ rest) ?hminus ?hplus]
      case hminus =>
        intro r he
        rw [hct, List.cons_append] at he
        injection he with e1 _
        exact absurd (e1 ▸ hcd) (by decide)
      case hplus =>
        intro r he
        rw [hct, List.cons_append] at he
        injection he with e1 _
        exact absurd (e1 ▸ hcd) (by decide)
      rw [scanNum4_pad y.toNat (by omega) rest]
      dsimp only
      rw [Int.toNat_of_nonneg h0]
    · rw [if_neg h9, List.cons_append]
      show scanYear ('+' :: (padZeros 4 (natToDigits y.toNat) ++ rest)) = some (y, rest)
      rw [scanYear]
      rw [scanNumU_pad y.toNat 4 rest hrest]
      dsimp only
      rw [Int.toNat_of_nonneg h0]
  · rw [if_neg h0, List.cons_append]
    show scanYear ('-' :: (padZeros 4 (natToDigits (-y).toNat) ++ rest)) = some (y, rest)
    rw [scanYear]
    rw [scanNumU_pad (-y).toNat 4 rest hrest]
    dsimp only
    have hth : (((-y).toNat : Int)) = -y := Int.toNat_of_nonneg (by omega)
    rw [hth]
    simp

/-- The dash literal accepts a dash-headed remainder. -/
theorem expectDash_cons (r : List Char) : expectDash ('-' :: r) = some r := rfl

/-- The colon literal accepts a colon-headed remainder. -/
theorem expectColon_cons (r : List Char) : expectColon (':' :: r) = some r := rfl

/-- No fractional-second field on empty input. -/
theorem parseFrac_nil : parseFrac [] = some [] := rfl

/-- `trim_start` does not touch the rendered year. -/
theorem trimStartL_dispYear (y : Int) (rest : List Char) :
    trimStartL (dispYearL y ++ rest) = dispYearL y ++ rest := by
  unfold dispYearL
  by_cases h0 : 0 ≤ y
  · rw [if_pos h0]
    by_cases h9 : y ≤ 9999
    · rw [if_pos h9]
      exact trimStartL_digits _ rest (padZeros_ne_nil _ _ (natToDigits_ne_nil _))
        (padZeros_all_digits _ _ (natToDigits_all_digits _))
    · rw [if_neg h9, List.cons_append]
      exact trimStartL_cons '+' _ (by decide)
  · rw [if_neg h0, List.cons_append]
    exact trimStartL_cons '-' _ (by decide)

/-- chrono parse-of-display round trip for dates: every valid date is
recovered from its ISO rendering. -/
theorem parseDateIso_disp (d : Ymd) (h : ValidYmd d) :
    parseDateIsoL (dispDateL d) = some ⟨d, h⟩ := by
  obtain ⟨hy1, hy2, hm1, hm2, hd1, hd2⟩ := h
  have hd31 : d.day ≤ 31 := hd2.trans (daysInMonth_le _ _)
  have hmne := padZeros_ne_nil 2 (natToDigits d.month) (natToDigits_ne_nil d.month)
  have hmall := padZeros_all_digits 2 _ (natToDigits_all_digits d.month)
  have hdne := padZeros_ne_nil 2 (natToDigits d.day) (natToDigits_ne_nil d.day)
  have hdall := padZeros_all_digits 2 _ (natToDigits_all_digits d.day)
  unfold parseDateIsoL dispDateL
  rw [trimStartL_dispYear]
  rw [scanYear_disp d.year hy1 hy2 _ (by intro c cs2 he; injection he with e1 _; rw [← e1]; decide)]
  dsimp only
  rw [trimStartL_cons '-' _ (by decide)]
  rw [expectDash_cons]
  dsimp only
  rw [trimStartL_digits _ _ hmne hmall]
  rw [scanNum2_pad d.month (by omega) _]
  dsimp only
  rw [trimStartL_cons '-' _ (by decide)]
  rw [expectDash_cons]
  dsimp only
  rw [trimStartL_eq_self (padZeros 2 (natToDigits d.day))
    (fun c cs2 he => isWs_of_isDigit c (hdall c (he ▸ List.mem_cons_self c cs2)))]
  rw [show padZeros 2 (natToDigits d.day) = padZeros 2 (natToDigits d.day) ++ []
    from (List.append_nil _).symm]
  rw [scanNum2_pad d.day (by omega) []]
  dsimp only
  rw [dif_pos (show ValidYmd ⟨d.year, d.month, d.day⟩ from ⟨hy1, hy2, hm1, hm2, hd1, hd2⟩)]
  rfl

/-- chrono parse-of-display round trip for times. -/
theorem parseTimeIso_disp (t : Hms) (h : ValidHms t) :
    parseTimeIsoL (dispTimeL t) = some ⟨t, h⟩ := by
  obtain ⟨hh, hm, hs⟩ := h
  have hhne := padZeros_ne_nil 2 (natToDigits t.hour) (natToDigits_ne_nil t.hour)
  have hhall := padZeros_all_digits 2 _ (natToDigits_all_digits t.hour)
  have hmne := padZeros_ne_nil 2 (natToDigits t.minute) (natToDigits_ne_nil t.minute)
  have hmall := padZeros_all_digits 2 _ (natToDigits_all_digits t.minute)
  have hsne := padZeros_ne_nil 2 (natToDigits t.second) (natToDigits_ne_nil t.second)
  have hsall := padZeros_all_digits 2 _ (natToDigits_all_digits t.second)
  unfold parseTimeIsoL dispTimeL
  rw [trimStartL_digits _ _ hhne hhall]
  rw [scanNum2_pad t.hour (by omega) _]
  dsimp only
  rw [trimStartL_cons ':' _ (by decide)]
  rw [expectColon_cons]
  dsimp only
  rw [trimStartL_digits _ _ hmne hmall]
  rw [scanNum2_pad t.minute (by omega) _]
  dsimp only
  rw [trimStartL_cons ':' _ (by decide)]
  rw [expectColon_cons]
  dsimp only
  rw [trimStartL_eq_self (padZeros 2 (natToDigits t.second))
    (fun c cs2 he => isWs_of_isDigit c (hsall c (he ▸ List.mem_cons_self c cs2)))]
  rw [show padZeros 2 (natToDigits t.second) = padZeros 2 (natToDigits t.second) ++ []
    from (List.append_nil _).symm]
  rw [scanNum2_pad t.second (by omega) []]
  dsimp only
  rw [parseFrac_nil]
  dsimp only
  rw [dif_pos (show ValidHms ⟨t.hour, t.minute, t.second⟩ from ⟨hh, hm, hs⟩)]
  rfl

/-- serde round trip for one show. -/
theorem decodeShow_encodeShow (s : Show) : decodeShow (encodeShow s) = some s := by
  have hd : parseDateIsoL ((dispDate s.date).data) = some s.date :=
    parseDateIso_disp s.date.val s.date.prop
  have ht : parseTimeIsoL ((dispTime s.time).data) = some s.time :=
    parseTimeIso_disp s.time.val s.time.prop
  have hc : decodeCategory (categoryName s.category) = some s.category := by
    cases s.category <;> rfl
  show (match parseDateIsoL ((dispDate s.date).data) with
        | some d =>
          match parseTimeIsoL ((dispTime s.time).data) with
          | some tm =>
            match decodeCategory (categoryName s.category) with
            | some c => some (⟨s.title, d, tm, c⟩ : Show)
            | none => none
          | none => none
        | none => none) = some s
  rw [hd]
  dsimp only
  rw [ht]
  dsimp only
  rw [hc]

/-- serde round trip for a sequence of shows. -/
theorem mapDecode_map_encode : ∀ shows : List Show,
    mapDecode (shows.map encodeShow) = some shows := by
  intro shows
  induction shows with
  | nil => rfl
  | cons s rest ih =>
    show mapDecode (encodeShow s :: rest.map encodeShow) = some (s :: rest)
    unfold mapDecode
    rw [decodeShow_encodeShow s]
    dsimp only
    rw [ih]

/-- C9: saving any sequence of shows through the snapshot store and loading
it back reproduces the sequence field-for-field. -/
theorem claim_C9_snapshot_roundtrip :
    ∀ shows : List Show, import_file (export_file shows) = some shows := by
  intro shows
  unfold export_file import_file
  exact mapDecode_map_encode shows

/-! ## Claim C7 -/

/-- Consuming an all-digit segment within the field width stops exactly at
the first non-digit. -/
theorem takeDigits_le :
    ∀ (ds : List Char) (w : Nat) (rest : List Char), ds.length ≤ w →
      (∀ c ∈ ds, c.isDigit = true) →
      (∀ c cs2, rest = c :: cs2 → c.isDigit = false) →
      takeDigits w (ds ++ rest) = (ds, rest) := by
  intro ds
  induction ds with
  | nil =>
    intro w rest _ _ hrest
    match w, rest with
    | 0, rest => rfl
    | w + 1, [] => rfl
    | w + 1, c :: cs2 =>
      show takeDigits (w + 1) (c :: cs2) = ([], c :: cs2)
      unfold takeDigits
      rw [hrest c cs2 rfl]
      rfl
  | cons c tl ih =>
    intro w rest hlen hall hrest
    match w with
    | 0 => simp at hlen
    | w + 1 =>
      show takeDigits (w + 1) (c :: (tl ++ rest)) = (c :: tl, rest)
      unfold takeDigits
      rw [if_pos (hall c (List.mem_cons_self c tl))]
      rw [ih w rest (by simp only [List.length_cons] at hlen; omega)
        (fun x hx => hall x (List.mem_cons_of_mem c hx)) hrest]

/-- Inversion of the bounded digit scan: the input splits into the consumed
digits and the remainder. -/
theorem takeDigits_decomp :
    ∀ (w : Nat) (cs ds rest : List Char), takeDigits w cs = (ds, rest) →
      cs = ds ++ rest ∧ (∀ c ∈ ds, c.isDigit = true) ∧ ds.length ≤ w := by
  intro w
  induction w with
  | zero =>
    intro cs ds rest h
    unfold takeDigits at h
    injection h with h1 h2
    subst h1
    subst h2
    exact ⟨rfl, by intro c hc; simp at hc, by simp⟩
  | succ w ih =>
    intro cs ds rest h
    match cs with
    | [] =>
      unfold takeDigits at h
      injection h with h1 h2
      subst h1
      subst h2
      exact ⟨rfl, by intro c hc; simp at hc, by simp⟩
    | c :: tl =>
      unfold takeDigits at h
      by_cases hc : c.isDigit = true
      · rw [if_pos hc] at h
        dsimp only at h
        injection h with h1 h2
        obtain ⟨ha, hb, hl⟩ := ih tl (takeDigits w tl).1 (takeDigits w tl).2 rfl
        subst h1
        subst h2
        refine ⟨?_, ?_, ?_⟩
        · rw [List.cons_append, ← ha]
        · intro x hx
          rcases List.mem_cons.mp hx with he | he
          · subst he; exact hc
          · exact hb x he
        · simp only [List.length_cons]
          omega
      · rw [if_neg hc] at h
        injection h with h1 h2
        subst h1
        subst h2
        exact ⟨rfl, by intro x hx; simp at hx, by simp⟩

/-- A two-digit field accepts one or two digits followed by a non-digit. -/
theorem scanNum2_of_append (ds rest : List Char)
    (hall : ∀ c ∈ ds, c.isDigit = true) (h1 : 1 ≤ ds.length) (h2 : ds.length ≤ 2)
    (hrest : ∀ c cs2, rest = c :: cs2 → c.isDigit = false) :
    scanNum2 (ds ++ rest) = some (valOfDigits ds, rest) := by
  unfold scanNum2
  rw [takeDigits_le ds 2 rest h2 hall hrest]
  dsimp only
  rw [isEmpty_false_of_ne_nil ds (by intro he; rw [he] at h1; simp at h1)]
  rw [if_neg Bool.false_ne_true]

/-- Inversion of a successful two-digit field scan. -/
theorem scanNum2_inv (cs rest : List Char) (v : Nat)
    (h : scanNum2 cs = some (v, rest)) :
    ∃ ds : List Char, cs = ds ++ rest ∧ (∀ c ∈ ds, c.isDigit = true) ∧
      1 ≤ ds.length ∧ ds.length ≤ 2 ∧ v = valOfDigits ds := by
  unfold scanNum2 at h
  dsimp only at h
  split at h
  · exact Option.noConfusion h
  · next hne =>
    injection h with h2
    injection h2 with h3 h4
    obtain ⟨ha, hb, hl⟩ := takeDigits_decomp 2 cs (takeDigits 2 cs).1 (takeDigits 2 cs).2 rfl
    refine ⟨(takeDigits 2 cs).1, ?_, hb, ?_, hl, h3.symm⟩
    · rw [← h4]
      exact ha
    · rcases hq : (takeDigits 2 cs).1 with _ | ⟨x, xs⟩
      · rw [hq] at hne
        exact absurd rfl hne
      · simp [hq]

/-- Inversion of the colon literal. -/
theorem expectColon_inv (rest r2 : List Char) (h : expectColon rest = some r2) :
    rest = ':' :: r2 := by
  rw [expectColon.eq_def] at h
  split at h
  · next r =>
    injection h with h2
    rw [h2]
  · exact Option.noConfusion h

/-- Construction of a successful `%H:%M` parse from its decomposition. -/
theorem parseTimeHM_build (ds1 ds2 r2 cs : List Char)
    (hcs : trimStartL cs = ds1 ++ ':' :: r2) (hr2 : trimStartL r2 = ds2)
    (hall1 : ∀ c ∈ ds1, c.isDigit = true) (hall2 : ∀ c ∈ ds2, c.isDigit = true)
    (hl1 : 1 ≤ ds1.length) (hl2 : ds1.length ≤ 2)
    (hl3 : 1 ≤ ds2.length) (hl4 : ds2.length ≤ 2)
    (hv : ValidHms ⟨valOfDigits ds1, valOfDigits ds2, 0⟩) :
    parseTimeHM cs = some ⟨⟨valOfDigits ds1, valOfDigits ds2, 0⟩, hv⟩ := by
  have hsc2 : scanNum2 ds2 = some (valOfDigits ds2, []) := by
    have h := scanNum2_of_append ds2 [] hall2 hl3 hl4
      (fun c cs2 he => List.noConfusion he)
    rwa [List.append_nil] at h
  unfold parseTimeHM
  rw [hcs]
  rw [scanNum2_of_append ds1 (':' :: r2) hall1 hl1 hl2
    (fun c cs2 he => by injection he with e1 _; rw [← e1]; decide)]
  dsimp only
  rw [expectColon_cons]
  dsimp only
  rw [hr2, hsc2]
  dsimp only
  rw [if_pos (show ([] : List Char).isEmpty = true from rfl)]
  rw [dif_pos hv]

/-- Full characterization of the chrono `%H:%M` parse: it succeeds exactly
on inputs of the form optional whitespace, one or two hour digits, a literal
colon, optional whitespace, one or two minute digits, and nothing after,
with hour < 24 and minute < 60 — and then the parsed time is those values
with second 0. -/
theorem parseTimeHM_some_iff (cs : List Char) (t : NaiveTime) :
    parseTimeHM cs = some t ↔
      ∃ ds1 r2 ds2 : List Char,
        trimStartL cs = ds1 ++ ':' :: r2 ∧ trimStartL r2 = ds2 ∧
        (∀ c ∈ ds1, c.isDigit = true) ∧ (∀ c ∈ ds2, c.isDigit = true) ∧
        1 ≤ ds1.length ∧ ds1.length ≤ 2 ∧ 1 ≤ ds2.length ∧ ds2.length ≤ 2 ∧
        valOfDigits ds1 < 24 ∧ valOfDigits ds2 < 60 ∧
        t.val = ⟨valOfDigits ds1, valOfDigits ds2, 0⟩ := by
  constructor
  · intro h
    unfold parseTimeHM at h
    rcases hs1 : scanNum2 (trimStartL cs) with _ | ⟨hh, rest⟩
    · rw [hs1] at h
      exact Option.noConfusion h
    · rw [hs1] at h
      dsimp only at h
      rcases hec : expectColon rest with _ | r2
      · rw [hec] at h
        exact Option.noConfusion h
      · rw [hec] at h
        dsimp only at h
        rcases hs2 : scanNum2 (trimStartL r2) with _ | ⟨mm, rest2⟩
        · rw [hs2] at h
          exact Option.noConfusion h
        · rw [hs2] at h
          dsimp only at h
          split at h
          · next hemp =>
            split at h
            · next hv =>
              injection h with h2
              obtain ⟨ds1, ha1, hb1, hc1, hd1, he1⟩ := scanNum2_inv (trimStartL cs) rest hh hs1
              obtain ⟨ds2, ha2, hb2, hc2, hd2, he2⟩ := scanNum2_inv (trimStartL r2) rest2 mm hs2
              have hrest2 : rest2 = [] := List.isEmpty_iff.mp hemp
              refine ⟨ds1, r2, ds2, ?_, ?_, hb1, hb2, hc1, hd1, hc2, hd2, ?_, ?_, ?_⟩
              · rw [ha1, expectColon_inv rest r2 hec]
              · rw [ha2, hrest2, List.append_nil]
              · rw [← he1]; exact hv.1
              · rw [← he2]; exact hv.2.1
              · rw [← h2, ← he1, ← he2]
            · exact Option.noConfusion h
          · exact Option.noConfusion h
  · rintro ⟨ds1, r2, ds2, hcs, hr2, hall1, hall2, hl1, hl2, hl3, hl4, hv1, hv2, htval⟩
    have hv : ValidHms ⟨valOfDigits ds1, valOfDigits ds2, 0⟩ :=
      ⟨hv1, hv2, by show (0 : Nat) < 60; omega⟩
    have ht : t = ⟨⟨valOfDigits ds1, valOfDigits ds2, 0⟩, hv⟩ := Subtype.ext htval
    rw [ht]
    exact parseTimeHM_build ds1 ds2 r2 cs hcs hr2 hall1 hall2 hl1 hl2 hl3 hl4 hv

/-- C7 counterexample: the parse is not strict `HH:MM` failing on any
deviation — chrono skips whitespace before each numeric field and accepts
single-digit fields, so `"20: 30"` (an extra space character) and `"5:30"`
(a one-digit hour) both parse successfully instead of failing with
`InvalidTimeFormat`. -/
theorem claim_C7_counterexample :
    parse_time ("20: 30") = some ⟨⟨20, 30, 0⟩, by decide⟩ ∧
    parse_time ("5:30") = some ⟨⟨5, 30, 0⟩, by decide⟩ ∧
    parse_time ("20: 30") ≠ none ∧
    parse_time ("5:30") ≠ none := by
  refine ⟨rfl, rfl, ?_, ?_⟩ <;> decide

/-- C7 amended: the time normalization removes the Hebrew phrase from the
trimmed text and parses the remainder as chrono 24-hour `%H:%M`, which
succeeds exactly on one-or-two hour digits, a literal colon and one-or-two
minute digits — each numeric field optionally preceded by whitespace — with
nothing left over, hour < 24 and minute < 60 (second fixed to 0); anything
else, including wrong separators, out-of-range values and unconsumable
trailing characters, fails: the spec's example parses to 20:30:00 and
`"25:99"` fails. -/
theorem claim_C7_parse_time_lenient :
    (parse_time ("בשעה 20:30") = some ⟨⟨20, 30, 0⟩, by decide⟩) ∧
    (parse_time ("25:99") = none) ∧
    (parse_time ("20-30") = none) ∧
    (parse_time ("20:30:00") = none) ∧
    (∀ cs : List Char, deletePhrase (("בשעה ").data ++ cs) = deletePhrase cs) ∧
    (∀ s : String, parse_time s = parseTimeHM (deletePhrase (trimL s.data))) ∧
    (∀ (cs : List Char) (t : NaiveTime),
      parseTimeHM cs = some t ↔
        ∃ ds1 r2 ds2 : List Char,
          trimStartL cs = ds1 ++ ':' :: r2 ∧ trimStartL r2 = ds2 ∧
          (∀ c ∈ ds1, c.isDigit = true) ∧ (∀ c ∈ ds2, c.isDigit = true) ∧
          1 ≤ ds1.length ∧ ds1.length ≤ 2 ∧ 1 ≤ ds2.length ∧ ds2.length ≤ 2 ∧
          valOfDigits ds1 < 24 ∧ valOfDigits ds2 < 60 ∧
          t.val = ⟨valOfDigits ds1, valOfDigits ds2, 0⟩) :=
  ⟨rfl, rfl, rfl, rfl, fun cs => rfl, fun s => rfl, parseTimeHM_some_iff⟩

/-- C7 witness: the characterization applied at the concrete lenient input
`"20: 30"`, built from its explicit decomposition. -/
theorem claim_C7_parse_time_lenient_witness :
    parseTimeHM (("20: 30").data) = some ⟨⟨20, 30, 0⟩, by decide⟩ :=
  (claim_C7_parse_time_lenient.2.2.2.2.2.2 (("20: 30").data)
      ⟨⟨20, 30, 0⟩, by decide⟩).mpr
    ⟨(("20").data), ((" 30").data), (("30").data), rfl, rfl, by decide, by decide,
      by decide, by decide, by decide, by decide, by decide, by decide, rfl⟩

end HtmaScanner
